import Mathlib

/-!
StoreApp (app/store.go): a shallow embedding

The ABCI façade `StoreApp` of `app/store.go` is embedded as pure functions over
an explicit application record.  Byte slices are lists of naturals, Go `int64`
values are integers reduced with `wrapInt64`, a Go panic is the `error` side of
`Except`, and the collaborators that live outside `app/store.go` (the state
manager `sm.State`, the stake module, the binary codec) are passed in as records
of functions.
-/

namespace CyberMiles

/-- Go `[]byte`; the nil slice and the empty slice are both `[]`. -/
abbrev Bytes := List Nat

/-- Reduction of an integer to the Go `int64` range (two's complement wrap-around). -/
def wrapInt64 (x : Int) : Int := (x + 2 ^ 63) % 2 ^ 64 - 2 ^ 63

/-- Go conversion `uint64(x)` of an `int64` value. -/
def toUint64 (x : Int) : Nat := (x % 2 ^ 64).toNat

/-- The fields of `abci.Validator` that `store.go` reads.  A value of this type is what a
non-nil `*abci.Validator` points to; lists of pointers that may be nil are
`List (Option Validator)`, see `addValChangesPtr`. -/
structure Validator where
  PubKey : Bytes
  Power : Int
deriving DecidableEq, Repr

/-- The loop of `pubKeyIndex`, started at position `i`. -/
def pubKeyIndexFrom (val : Validator) : List Validator → Nat → Int
  | [], _ => -1
  | v :: rest, i => if val.PubKey = v.PubKey then (i : Int) else pubKeyIndexFrom val rest (i + 1)

/-- Function `pubKeyIndex`: index of the first entry of `list` with the same `PubKey`, or `-1`. -/
def pubKeyIndex (val : Validator) (list : List Validator) : Int :=
  pubKeyIndexFrom val list 0

/-- One iteration of the loop of `AddValChange` on the pending slice, for non-nil
pointers (`addValStepPtr` is the loop body with nil pointers). -/
def addValStep (pending : List Validator) (d : Validator) : List Validator :=
  let idx := pubKeyIndex d pending
  if idx ≥ 0 then pending.set idx.toNat d else pending ++ [d]

/-- The pending slice after the whole loop of `AddValChange`. -/
def addValChanges (pending diffs : List Validator) : List Validator :=
  diffs.foldl addValStep pending

/-- Keys of a list of validators, in order. -/
def keysOf (l : List Validator) : List Bytes := l.map Validator.PubKey

/-- Order of first appearance: every element once, at the place of its first occurrence. -/
def firstAppearance : List Bytes → List Bytes
  | [] => []
  | k :: ks => k :: (firstAppearance ks).filter (fun x => x ≠ k)

/-- The last entry of `diffs` whose key is `k`, if any. -/
def lastDiff (k : Bytes) (diffs : List Validator) : Option Validator :=
  diffs.reverse.find? (fun d => d.PubKey = k)

/-- Specification form of one merge: overwrite the first entry with the key, else append. -/
def upsert (d : Validator) : List Validator → List Validator
  | [] => [d]
  | v :: vs => if d.PubKey = v.PubKey then d :: vs else v :: upsert d vs


/-! ## ABCI messages -/

/-- The response codes `store.go` uses: `OK` is the zero value of the code field,
`EncodingErr` is `errors.CodeTypeEncodingErr` and `UnknownRequest` is
`errors.CodeTypeUnknownRequest`; the two error constants are non-zero and distinct. -/
inductive CodeType where
  | OK
  | EncodingErr
  | UnknownRequest
deriving DecidableEq, Repr

/-- The fields of `abci.RequestQuery`. -/
structure RequestQuery where
  Data : Bytes
  Path : String
  Height : Int
  Prove : Bool
deriving DecidableEq, Repr

/-- The fields of `abci.ResponseQuery`. -/
structure ResponseQuery where
  Code : CodeType
  Key : Bytes
  Value : Bytes
  Proof : Bytes
  Height : Int
  Log : String
deriving DecidableEq, Repr

/-- The zero value of `abci.ResponseQuery` (the named result before any assignment). -/
def ResponseQuery.zero : ResponseQuery :=
  { Code := CodeType.OK, Key := [], Value := [], Proof := [], Height := 0, Log := "" }

/-- The fields of `abci.ResponseCommit`. -/
structure ResponseCommit where
  Code : CodeType
  Data : Bytes
  Log : String
deriving DecidableEq, Repr

/-- The fields of `abci.ResponseInfo` that `Info` fills. -/
structure ResponseInfo where
  Data : String
  LastBlockHeight : Int
  LastBlockAppHash : Bytes
deriving DecidableEq, Repr

/-- The fields of `abci.ResponseEndBlock`. -/
structure ResponseEndBlock where
  ValidatorUpdates : List Validator
deriving DecidableEq, Repr

/-! ## Collaborators outside `store.go` -/

/-- The methods of the state manager `sm.State` and of its committed view that
`store.go` calls, as functions of a state `σ`.  `Commit` returns the hash and the
state after the commit, or the error; `GetVersionedWithProof` returns the value
and the serialized proof, or the error; `Get` returns nil (`[]`) for an absent key. -/
structure StateOps (σ : Type) where
  LatestHeight : σ → Int
  LatestHash : σ → Bytes
  Size : σ → Int
  Commit : σ → Int → Except String (Bytes × σ)
  VersionExists : σ → Nat → Bool
  GetVersionedWithProof : σ → Bytes → Int → Except String (Bytes × Bytes)
  Get : σ → Bytes → Bytes

/-- The lookups of the stake module and the encoder `wire.BinaryBytes` at the types
`Query` encodes.  `GetSlot` and `GetCandidate` return a pointer, `none` being nil.
`HexToAddress` is `common.HexToAddress(s).String()`. -/
structure StakeOps where
  Slot : Type
  Candidate : Type
  SlotDelegate : Type
  GetSlot : Bytes → Option Slot
  GetSlots : List Slot
  GetCandidates : List Candidate
  GetCandidate : Bytes → Option Candidate
  GetSlotDelegatesByAddress : Bytes → List SlotDelegate
  HexToAddress : Bytes → Bytes
  binSlot : Slot → Bytes
  binSlots : List Slot → Bytes
  binCandidates : List Candidate → Bytes
  binCandidate : Candidate → Bytes
  binSlotDelegates : List SlotDelegate → Bytes

/-! ## The application -/

/-- The record `StoreApp`: name, database state, cached validator changes and the
height of the last committed block.  The chain-info cache and the logger take no
part in any result and are left out. -/
structure StoreApp (σ : Type) where
  Name : String
  state : σ
  pending : List Validator
  height : Int

/-- Constructor `NewStoreApp`, given the state that `loadState` returned: `pending` starts nil. -/
def NewStoreApp {σ : Type} (ops : StateOps σ) (appName : String) (state : σ) : StoreApp σ :=
  { Name := appName, state := state, pending := [], height := ops.LatestHeight state }

/-- Method `Hash`: the last hash stored in the database. -/
def Hash {σ : Type} (ops : StateOps σ) (app : StoreApp σ) : Bytes :=
  ops.LatestHash app.state

/-- Method `CommittedHeight`: the last block height committed. -/
def CommittedHeight {σ : Type} (app : StoreApp σ) : Int := app.height

/-- Method `WorkingHeight`: `app.height + 1` in `int64`. -/
def WorkingHeight {σ : Type} (app : StoreApp σ) : Int := wrapInt64 (app.height + 1)

/-- Method `Info`: name, committed height and latest hash; the receiver is not assigned. -/
def Info {σ : Type} (ops : StateOps σ) (app : StoreApp σ) : ResponseInfo × StoreApp σ :=
  ({ Data := app.Name, LastBlockHeight := CommittedHeight app,
     LastBlockAppHash := Hash ops app }, app)

/-- The height `Query` answers for (lines 159-173 of `store.go`). -/
def resolveHeight {σ : Type} (ops : StateOps σ) (app : StoreApp σ) (reqHeight : Int) : Int :=
  if reqHeight = 0 then
    let withProof := wrapInt64 (CommittedHeight app - 1)
    if ops.VersionExists app.state (toUint64 withProof) then withProof
    else CommittedHeight app
  else reqHeight

/-- The panic value of dereferencing a nil pointer. -/
def nilDeref : String := "runtime error: invalid memory address or nil pointer dereference"

/-- Method `Query`.  The result is the response and the (unassigned) receiver, or the panic
raised by `*slot` / `*candidate` when the stake lookup returned nil. -/
def Query {σ : Type} (ops : StateOps σ) (stake : StakeOps) (app : StoreApp σ)
    (reqQuery : RequestQuery) : Except String (ResponseQuery × StoreApp σ) :=
  if reqQuery.Data.length = 0 then
    Except.ok ({ ResponseQuery.zero with
      Log := "Query cannot be zero length", Code := CodeType.EncodingErr }, app)
  else
    let height := resolveHeight ops app reqQuery.Height
    let resQuery := { ResponseQuery.zero with Height := height }
    if reqQuery.Path = "/store" ∨ reqQuery.Path = "/key" then
      let key := reqQuery.Data
      let resQuery := { resQuery with Key := key }
      if reqQuery.Prove then
        match ops.GetVersionedWithProof app.state key height with
        | Except.error err => Except.ok ({ resQuery with Log := err }, app)
        | Except.ok (value, proof) =>
          Except.ok ({ resQuery with Value := value, Proof := proof }, app)
      else
        Except.ok ({ resQuery with Value := ops.Get app.state key }, app)
    else if reqQuery.Path = "/slot" then
      match stake.GetSlot reqQuery.Data with
      | none => Except.error nilDeref
      | some slot => Except.ok ({ resQuery with Value := stake.binSlot slot }, app)
    else if reqQuery.Path = "/slots" then
      Except.ok ({ resQuery with Value := stake.binSlots stake.GetSlots }, app)
    else if reqQuery.Path = "/validators" then
      Except.ok ({ resQuery with Value := stake.binCandidates stake.GetCandidates }, app)
    else if reqQuery.Path = "/validator" then
      match stake.GetCandidate reqQuery.Data with
      | none => Except.error nilDeref
      | some candidate => Except.ok ({ resQuery with Value := stake.binCandidate candidate }, app)
    else if reqQuery.Path = "/delegator" then
      let addr := stake.HexToAddress reqQuery.Data
      Except.ok ({ resQuery with
        Value := stake.binSlotDelegates (stake.GetSlotDelegatesByAddress addr) }, app)
    else
      Except.ok ({ resQuery with
        Code := CodeType.UnknownRequest,
        Log := "Unexpected Query path: " ++ reqQuery.Path }, app)

/-- Method `Commit`: the height is incremented in `int64`, the state is committed at the new
height, an error of the state commit is a panic with that error; the response is the
empty-tree sentinel when the size is 0 after the commit and the hash otherwise. -/
def Commit {σ : Type} (ops : StateOps σ) (app : StoreApp σ) :
    Except String (ResponseCommit × StoreApp σ) :=
  let height := wrapInt64 (app.height + 1)
  match ops.Commit app.state height with
  | Except.error err => Except.error err
  | Except.ok (hash, state) =>
    let app1 : StoreApp σ := { app with height := height, state := state }
    if ops.Size state = 0 then
      Except.ok ({ Code := CodeType.OK, Data := [], Log := "Empty hash for empty tree" }, app1)
    else
      Except.ok ({ Code := CodeType.OK, Data := hash, Log := "" }, app1)

/-- Method `InitChain`: returns the zero response, the receiver is not assigned. -/
def InitChain {σ : Type} (app : StoreApp σ) : Unit × StoreApp σ := ((), app)

/-- Method `BeginBlock`: returns the zero response, the receiver is not assigned. -/
def BeginBlock {σ : Type} (app : StoreApp σ) : Unit × StoreApp σ := ((), app)

/-- Method `EndBlock`: hands out the pending slice and sets it to nil. -/
def EndBlock {σ : Type} (app : StoreApp σ) : ResponseEndBlock × StoreApp σ :=
  ({ ValidatorUpdates := app.pending }, { app with pending := [] })

/-- Method `AddValChange`: the loop over `diffs` on `app.pending`. -/
def AddValChange {σ : Type} (app : StoreApp σ) (diffs : List Validator) : StoreApp σ :=
  { app with pending := addValChanges app.pending diffs }

/-- The calls a driver can make on a `StoreApp`. -/
inductive Op where
  | addValChange (diffs : List Validator)
  | endBlock
  | commit
  | query (req : RequestQuery)
  | info
  | beginBlock
  | initChain

/-- The application after one call, or the panic the call raised. -/
def step {σ : Type} (ops : StateOps σ) (stake : StakeOps) (app : StoreApp σ) :
    Op → Except String (StoreApp σ)
  | Op.addValChange diffs => Except.ok (AddValChange app diffs)
  | Op.endBlock => Except.ok (EndBlock app).2
  | Op.commit => (Commit ops app).map Prod.snd
  | Op.query req => (Query ops stake app req).map Prod.snd
  | Op.info => Except.ok (Info ops app).2
  | Op.beginBlock => Except.ok (BeginBlock app).2
  | Op.initChain => Except.ok (InitChain app).2

/-- The application after a sequence of calls, or the first panic. -/
def run {σ : Type} (ops : StateOps σ) (stake : StakeOps) (app : StoreApp σ) :
    List Op → Except String (StoreApp σ)
  | [] => Except.ok app
  | op :: rest =>
    match step ops stake app op with
    | Except.error err => Except.error err
    | Except.ok app1 => run ops stake app1 rest

/-! ## The state manager, from its description -/

/-- Modelled from the spec: a version of the tree, `an immutable snapshot of the full key
space at a given height`, as its key/value pairs, every key once. -/
abbrev Snapshot := List (Bytes × Bytes)

/-- Modelled from the spec: value of a key in a version, nil (`[]`) when the key is absent. -/
def Snapshot.value (snap : Snapshot) (key : Bytes) : Bytes :=
  (snap.lookup key).getD []

/-- Modelled from the spec: write of one key, replacing an earlier value of the key
(`keys unique within a version`). -/
def Snapshot.write (snap : Snapshot) (kv : Bytes × Bytes) : Snapshot :=
  kv :: snap.filter (fun e => e.1 ≠ kv.1)

/-- Modelled from the spec: the state manager `sm.State` of cosmos-sdk with its
versioned tree, which `store.go` only calls.  `versions` are the retained versions
(height and snapshot), newest first; `append` is the Append overlay, the writes of
the block under construction, oldest first; `historySize` is the retention window. -/
structure SpecState where
  versions : List (Int × Snapshot)
  append : List (Bytes × Bytes)
  historySize : Int
deriving DecidableEq, Repr

/-- Modelled from the spec: height of the latest version, 0 for an empty tree
(`load() ... returns the latest version's height (0 if empty)`). -/
def SpecState.latestHeight (s : SpecState) : Int :=
  match s.versions with
  | [] => 0
  | v :: _ => v.1

/-- Modelled from the spec: the latest committed version, empty for an empty tree. -/
def SpecState.latest (s : SpecState) : Snapshot :=
  match s.versions with
  | [] => []
  | v :: _ => v.2

/-- Modelled from the spec: a write through the Append overlay (`append()` is `the single
mutable overlay for ordered transaction execution within the current block`). -/
def SpecState.set (s : SpecState) (key value : Bytes) : SpecState :=
  { s with append := s.append ++ [(key, value)] }

/-- Modelled from the spec: `commit(height)` of the state manager: `requires height ==
workingHeight; folds append()'s writes into the tree via saveVersion, clears the
overlay, advances committedHeight, returns the new root hash`; only the last
`historySize` versions stay queryable.  `rootHash` is the tree's hash of a version. -/
def SpecState.commit (rootHash : Snapshot → Bytes) (s : SpecState) (height : Int) :
    Except String (Bytes × SpecState) :=
  if height = s.latestHeight + 1 then
    let snap := s.append.foldl Snapshot.write s.latest
    let kept := ((height, snap) :: s.versions).filter (fun v => height - s.historySize < v.1)
    Except.ok (rootHash snap, { s with versions := kept, append := [] })
  else
    Except.error "InternalError: commit height is not the working height"

/-- Modelled from the spec: `versionExists(height)` on the retained versions. -/
def SpecState.versionExists (s : SpecState) (version : Nat) : Bool :=
  s.versions.any (fun v => v.1 = (version : Int))

/-- Modelled from the spec: `getVersionedWithProof(key, height)` returns the value (or
absence) at that version with a proof and `fails with VersionNotFound if height was
never committed or has been pruned`.  `proofOf` is the tree's serialized proof. -/
def SpecState.getVersionedWithProof (proofOf : Snapshot → Bytes → Bytes) (s : SpecState)
    (key : Bytes) (height : Int) : Except String (Bytes × Bytes) :=
  match s.versions.lookup height with
  | none => Except.error "VersionNotFound"
  | some snap => Except.ok (snap.value key, proofOf snap key)

/-- Modelled from the spec: `get(key)` is the `value or absence, against the latest
committed version`. -/
def SpecState.get (s : SpecState) (key : Bytes) : Bytes := s.latest.value key

/-- Modelled from the spec: the state manager's operations on `SpecState`, for a tree
with root hash `rootHash` and proofs `proofOf`; `size()` is the `key count in the
committed version`. -/
def specOps (rootHash : Snapshot → Bytes) (proofOf : Snapshot → Bytes → Bytes) :
    StateOps SpecState :=
  { LatestHeight := SpecState.latestHeight
    LatestHash := fun s => rootHash s.latest
    Size := fun s => (s.latest.length : Int)
    Commit := SpecState.commit rootHash
    VersionExists := SpecState.versionExists
    GetVersionedWithProof := SpecState.getVersionedWithProof proofOf
    Get := SpecState.get }

/-- Modelled from the spec: the value of a key as of version `height`, when that version
is retained. -/
def SpecState.valueAt (s : SpecState) (height : Int) (key : Bytes) : Option Bytes :=
  (s.versions.lookup height).map (fun snap => snap.value key)

/-- Modelled from the spec: a write through the Append overlay of the state of the
application (`app.Append().Set`). -/
def StoreApp.set (app : StoreApp SpecState) (key value : Bytes) : StoreApp SpecState :=
  { app with state := app.state.set key value }

/-! ## Concrete collaborators for the scenarios -/

/-- A root hash for the scenarios: the key count, then all keys and values. -/
def demoHash (snap : Snapshot) : Bytes := snap.length :: snap.flatMap (fun e => e.1 ++ e.2)

/-- A proof encoding for the scenarios: the key followed by its value in the version. -/
def demoProof (snap : Snapshot) (key : Bytes) : Bytes := key ++ snap.value key

/-- The state manager of the scenarios. -/
def demoOps : StateOps SpecState := specOps demoHash demoProof

/-- A stake module with no slots and no candidates. -/
def demoStake : StakeOps :=
  { Slot := Unit, Candidate := Unit, SlotDelegate := Unit
    GetSlot := fun _ => none
    GetSlots := []
    GetCandidates := []
    GetCandidate := fun _ => none
    GetSlotDelegatesByAddress := fun _ => []
    HexToAddress := fun b => b
    binSlot := fun _ => [0]
    binSlots := fun l => [l.length]
    binCandidates := fun l => [l.length]
    binCandidate := fun _ => [0]
    binSlotDelegates := fun l => [l.length] }

/-- The key `alice`. -/
def alice : Bytes := [97, 108, 105, 99, 101]

/-- A tree whose latest version is 4 and holds one key. -/
def stateAt4 : SpecState :=
  { versions := [(4, [([98, 111, 98], [7])])], append := [], historySize := 10 }

/-- The application opened on `stateAt4`. -/
def appAt4 : StoreApp SpecState := NewStoreApp demoOps "travis" stateAt4

/-- The scenario of the spec: `alice→100` written and committed at height 5, then
`alice→150` written and committed at height 6. -/
def appAt6 : Except String (StoreApp SpecState) :=
  match Commit demoOps (appAt4.set alice [100]) with
  | Except.error e => Except.error e
  | Except.ok (_, app5) =>
    match Commit demoOps (app5.set alice [150]) with
    | Except.error e => Except.error e
    | Except.ok (_, app6) => Except.ok app6

/-- The state of the scenario after both commits, written out. -/
def stateAt6 : SpecState :=
  { versions := [(6, [(alice, [150]), ([98, 111, 98], [7])]),
                 (5, [(alice, [100]), ([98, 111, 98], [7])]),
                 (4, [([98, 111, 98], [7])])],
    append := [], historySize := 10 }

/-- Validators `A` and `B` of the scenarios. -/
def keyA : Bytes := [65]

/-- Key of validator `B`. -/
def keyB : Bytes := [66]

/-! ## Auxiliary definitions for the statements -/

/-- The application of the scenarios with a given pending list. -/
def appWith (pending : List Validator) : StoreApp SpecState :=
  { Name := "travis", state := stateAt4, pending := pending, height := 4 }

/-- The pending list after a call that returns. -/
def pendingAfter (pending : List Validator) : Op → List Validator
  | Op.addValChange diffs => addValChanges pending diffs
  | Op.endBlock => []
  | _ => pending

/-- Number of `Commit` calls in a sequence of calls. -/
def commitCount : List Op → Nat
  | [] => 0
  | Op.commit :: rest => commitCount rest + 1
  | _ :: rest => commitCount rest

/-- The committed height after a call that returns. -/
def heightAfter (height : Int) : Op → Int
  | Op.commit => wrapInt64 (height + 1)
  | _ => height

/-- The application after two commits on `appAt4` without writes. -/
def appPlain6 : StoreApp SpecState :=
  { Name := "travis",
    state := { versions := [(6, [([98, 111, 98], [7])]), (5, [([98, 111, 98], [7])]),
                            (4, [([98, 111, 98], [7])])],
               append := [], historySize := 10 },
    pending := [], height := 6 }

/-- The application of the scenario after the commits at heights 5 and 6. -/
def app6 : StoreApp SpecState :=
  { Name := "travis", state := stateAt6, pending := [], height := 6 }

/-- The `Value` of the response of a `Query` that returned. -/
def queryValue {α : Type} (res : Except String (ResponseQuery × α)) : Option Bytes :=
  match res with
  | Except.ok (r, _) => some r.Value
  | Except.error _ => none

/-- The paths `Query` recognizes. -/
def knownPaths : List String :=
  ["/store", "/key", "/slot", "/slots", "/validators", "/validator", "/delegator"]

/-- An empty tree, before the first commit. -/
def emptyState : SpecState := { versions := [], append := [], historySize := 10 }

/-- The application opened on the empty tree: committed height 0. -/
def appAt0 : StoreApp SpecState := NewStoreApp demoOps "travis" emptyState


/-- An application whose height (7) is ahead of its tree (latest version 4): the state
commit at the working height 8 is rejected. -/
def appSkew : StoreApp SpecState :=
  { Name := "travis", state := stateAt4, pending := [], height := 7 }

/-- The snapshot of the scenario from height 6 on. -/
def snapLate : Snapshot := [(alice, [150]), ([98, 111, 98], [7])]

/-- The application of the scenario after ten more commits without writes: height 16,
versions 7 to 16 retained, versions 4 to 6 pruned. -/
def app16 : StoreApp SpecState :=
  { Name := "travis",
    state := { versions := (List.range 10).map (fun i => ((16 : Int) - (i : Int), snapLate)),
               append := [], historySize := 10 },
    pending := [], height := 16 }

/-- A key that no version of the scenario holds. -/
def carol : Bytes := [99, 97, 114, 111, 108]

/-- A stake module with one slot `s1` (encoded as `[1, 0]`) and one candidate `A`
(encoded as `[2, 0]`); every other lookup reports absence with nil. -/
def demoStakeOne : StakeOps :=
  { Slot := Nat, Candidate := Nat, SlotDelegate := Nat
    GetSlot := fun id => if id = [115, 49] then some 0 else none
    GetSlots := [0]
    GetCandidates := [0]
    GetCandidate := fun pk => if pk = keyA then some 0 else none
    GetSlotDelegatesByAddress := fun _ => []
    HexToAddress := fun b => b
    binSlot := fun s => [1, s]
    binSlots := fun l => 3 :: l
    binCandidates := fun l => 4 :: l
    binCandidate := fun c => [2, c]
    binSlotDelegates := fun l => 5 :: l }

/-- The entry that stands in place of `v` after the diffs `ds`: the last diff with the
key of `v`, or `v` itself. -/
def headAfter (v : Validator) (ds : List Validator) : Validator :=
  ds.foldl (fun h d => if d.PubKey = h.PubKey then d else h) v

/-- Modelled from the spec: the version that a commit creates from the latest version
and the writes of the Append overlay (`folds all pending writes into a new immutable
version`). -/
def SpecState.nextVersion (s : SpecState) : Snapshot :=
  s.append.foldl Snapshot.write s.latest

/-- The application of the scenario after the commit at height 5. -/
def app5 : StoreApp SpecState :=
  { Name := "travis",
    state := { versions := [(5, [(alice, [100]), ([98, 111, 98], [7])]),
                            (4, [([98, 111, 98], [7])])],
               append := [], historySize := 10 },
    pending := [], height := 5 }

/-! ## The parameter registry (utils/params.go) -/

/-- The value `sdk.NewRat(num, den)`, kept as numerator and denominator. -/
structure SdkRat where
  num : Int
  den : Int
deriving DecidableEq, Repr

/-- The struct `Params`; `uint16` and `uint64` fields are naturals, `int16` and `int64`
fields are integers. -/
structure Params where
  HoldAccount : Bytes
  MaxVals : Nat
  SelfStakingRatio : SdkRat
  InflationRate : SdkRat
  ValidatorSizeThreshold : SdkRat
  UnstakeWaitingPeriod : Nat
  ProposalExpirePeriod : Int
  DeclareCandidacy : Nat
  UpdateCandidacy : Nat
  TransferFundProposal : Nat
  ChangeParamsProposal : Nat
  GasPrice : Nat
  MinStakingAmount : Int
  ValidatorsBlockAwardRatio : SdkRat
  MaxSlashingBlocks : Int
  SlashingRatio : SdkRat
  CubePubKeys : String
deriving DecidableEq, Repr

/-- Function `defaultParams`; the package variable `HoldAccount` is declared outside
`params.go` and is a parameter. -/
def defaultParams (holdAccount : Bytes) : Params :=
  { HoldAccount := holdAccount
    MaxVals := 100
    SelfStakingRatio := ⟨10, 100⟩
    InflationRate := ⟨8, 100⟩
    ValidatorSizeThreshold := ⟨12, 100⟩
    UnstakeWaitingPeriod := 7 * 24 * 3600 / 10
    ProposalExpirePeriod := 7 * 24 * 3600
    DeclareCandidacy := 1000000
    UpdateCandidacy := 1000000
    TransferFundProposal := 2000000
    ChangeParamsProposal := 2000000
    GasPrice := 2000000000
    MinStakingAmount := 1000
    ValidatorsBlockAwardRatio := ⟨80, 100⟩
    MaxSlashingBlocks := 12
    SlashingRatio := ⟨1, 1000⟩
    CubePubKeys := "{}" }

/-- The package variables `params` and `dirty`. -/
structure ParamsState where
  params : Params
  dirty : Bool
deriving DecidableEq, Repr

/-- The initial values of the package variables. -/
def initialParams (holdAccount : Bytes) : ParamsState :=
  { params := defaultParams holdAccount, dirty := false }

/-- The fields of `Params`, in the order of the declaration (the order of
`pv.Field(i)`). -/
inductive ParamField where
  | HoldAccount
  | MaxVals
  | SelfStakingRatio
  | InflationRate
  | ValidatorSizeThreshold
  | UnstakeWaitingPeriod
  | ProposalExpirePeriod
  | DeclareCandidacy
  | UpdateCandidacy
  | TransferFundProposal
  | ChangeParamsProposal
  | GasPrice
  | MinStakingAmount
  | ValidatorsBlockAwardRatio
  | MaxSlashingBlocks
  | SlashingRatio
  | CubePubKeys
deriving DecidableEq, Repr

/-- All fields, by index. -/
def paramFields : List ParamField :=
  [ParamField.HoldAccount, ParamField.MaxVals, ParamField.SelfStakingRatio,
   ParamField.InflationRate, ParamField.ValidatorSizeThreshold,
   ParamField.UnstakeWaitingPeriod, ParamField.ProposalExpirePeriod,
   ParamField.DeclareCandidacy, ParamField.UpdateCandidacy,
   ParamField.TransferFundProposal, ParamField.ChangeParamsProposal, ParamField.GasPrice,
   ParamField.MinStakingAmount, ParamField.ValidatorsBlockAwardRatio,
   ParamField.MaxSlashingBlocks, ParamField.SlashingRatio, ParamField.CubePubKeys]

/-- The struct tag `json` of a field. -/
def ParamField.jsonTag : ParamField → String
  | ParamField.HoldAccount => "hold_account"
  | ParamField.MaxVals => "max_vals"
  | ParamField.SelfStakingRatio => "self_staking_ratio"
  | ParamField.InflationRate => "inflation_rate"
  | ParamField.ValidatorSizeThreshold => "validator_size_threshold"
  | ParamField.UnstakeWaitingPeriod => "unstake_waiting_period"
  | ParamField.ProposalExpirePeriod => "proposal_expire_period"
  | ParamField.DeclareCandidacy => "declare_candidacy"
  | ParamField.UpdateCandidacy => "update_candidacy"
  | ParamField.TransferFundProposal => "transfer_fund_proposal"
  | ParamField.ChangeParamsProposal => "change_params_proposal"
  | ParamField.GasPrice => "gas_price"
  | ParamField.MinStakingAmount => "min_staking_amount"
  | ParamField.ValidatorsBlockAwardRatio => "validators_block_award_ratio"
  | ParamField.MaxSlashingBlocks => "max_slashing_blocks"
  | ParamField.SlashingRatio => "slashing_ratio"
  | ParamField.CubePubKeys => "cube_pub_keys"

/-- The struct tag `type` of a field, empty when the field has none. -/
def ParamField.typeTag : ParamField → String
  | ParamField.HoldAccount => ""
  | ParamField.MaxVals => "uint"
  | ParamField.SelfStakingRatio => "float"
  | ParamField.InflationRate => "rat"
  | ParamField.ValidatorSizeThreshold => "rat"
  | ParamField.UnstakeWaitingPeriod => "uint"
  | ParamField.ProposalExpirePeriod => "uint"
  | ParamField.DeclareCandidacy => "uint"
  | ParamField.UpdateCandidacy => "uint"
  | ParamField.TransferFundProposal => "uint"
  | ParamField.ChangeParamsProposal => "uint"
  | ParamField.GasPrice => "uint"
  | ParamField.MinStakingAmount => "uint"
  | ParamField.ValidatorsBlockAwardRatio => "uint"
  | ParamField.MaxSlashingBlocks => "uint"
  | ParamField.SlashingRatio => "float"
  | ParamField.CubePubKeys => "json"

/-- The kinds of `reflect` that the fields of `Params` have. -/
inductive Kind where
  | Array
  | Struct
  | Int16
  | Int64
  | Uint16
  | Uint64
  | String
deriving DecidableEq, Repr

/-- The kind of a field, from its declared type (`common.Address` is an array,
`sdk.Rat` a struct). -/
def ParamField.kind : ParamField → Kind
  | ParamField.HoldAccount => Kind.Array
  | ParamField.MaxVals => Kind.Uint16
  | ParamField.SelfStakingRatio => Kind.Struct
  | ParamField.InflationRate => Kind.Struct
  | ParamField.ValidatorSizeThreshold => Kind.Struct
  | ParamField.UnstakeWaitingPeriod => Kind.Uint64
  | ParamField.ProposalExpirePeriod => Kind.Int64
  | ParamField.DeclareCandidacy => Kind.Uint64
  | ParamField.UpdateCandidacy => Kind.Uint64
  | ParamField.TransferFundProposal => Kind.Uint64
  | ParamField.ChangeParamsProposal => Kind.Uint64
  | ParamField.GasPrice => Kind.Uint64
  | ParamField.MinStakingAmount => Kind.Int64
  | ParamField.ValidatorsBlockAwardRatio => Kind.Struct
  | ParamField.MaxSlashingBlocks => Kind.Int16
  | ParamField.SlashingRatio => Kind.Struct
  | ParamField.CubePubKeys => Kind.String

/-- Go conversion `int16(x)` of an `int64` value. -/
def wrapInt16 (x : Int) : Int := (x + 2 ^ 15) % 2 ^ 16 - 2 ^ 15

/-- Method `SetInt` of `reflect.Value` on a field of a signed kind: the value is
converted to the type of the field. -/
def ParamField.setInt (p : Params) (iv : Int) : ParamField → Params
  | ParamField.ProposalExpirePeriod => { p with ProposalExpirePeriod := iv }
  | ParamField.MinStakingAmount => { p with MinStakingAmount := iv }
  | ParamField.MaxSlashingBlocks => { p with MaxSlashingBlocks := wrapInt16 iv }
  | _ => p

/-- Method `SetUint` of `reflect.Value` on a field of an unsigned kind: the value is
converted to the type of the field. -/
def ParamField.setUint (p : Params) (iv : Nat) : ParamField → Params
  | ParamField.MaxVals => { p with MaxVals := iv % 2 ^ 16 }
  | ParamField.UnstakeWaitingPeriod => { p with UnstakeWaitingPeriod := iv }
  | ParamField.DeclareCandidacy => { p with DeclareCandidacy := iv }
  | ParamField.UpdateCandidacy => { p with UpdateCandidacy := iv }
  | ParamField.TransferFundProposal => { p with TransferFundProposal := iv }
  | ParamField.ChangeParamsProposal => { p with ChangeParamsProposal := iv }
  | ParamField.GasPrice => { p with GasPrice := iv }
  | _ => p

/-- Method `SetString` of `reflect.Value` on a field of kind string. -/
def ParamField.setString (p : Params) (value : String) : ParamField → Params
  | ParamField.CubePubKeys => { p with CubePubKeys := value }
  | _ => p

/-- The number read so far followed by decimal digits; `none` at a character that is
not a decimal digit. -/
def digitsFrom : Nat → List Char → Option Nat
  | acc, [] => some acc
  | acc, c :: cs =>
    if 48 ≤ c.toNat ∧ c.toNat ≤ 57 then digitsFrom (acc * 10 + (c.toNat - 48)) cs else none

/-- The number a non-empty string of decimal digits denotes. -/
def decimalValue (cs : List Char) : Option Nat :=
  match cs with
  | [] => none
  | _ => digitsFrom 0 cs

/-- Library call `strconv.ParseUint(s, 10, 64)`: the value, or `none` for an error (empty
string, a character that is not a decimal digit, or a value above `2^64 - 1`). -/
def ParseUint (s : String) : Option Nat :=
  match decimalValue s.toList with
  | some n => if n < 2 ^ 64 then some n else none
  | none => none

/-- Library call `strconv.ParseInt(s, 10, 64)`: an optional sign and decimal digits; the
value, or `none` for an error (syntax, or a value outside `int64`). -/
def ParseInt (s : String) : Option Int :=
  match s.toList with
  | '+' :: cs =>
    match decimalValue cs with
    | some n => if n < 2 ^ 63 then some (n : Int) else none
    | none => none
  | '-' :: cs =>
    match decimalValue cs with
    | some n => if n ≤ 2 ^ 63 then some (-(n : Int)) else none
    | none => none
  | cs =>
    match decimalValue cs with
    | some n => if n < 2 ^ 63 then some (n : Int) else none
    | none => none

/-- The first field whose `json` tag is `name` (the loop over `pv.NumField()`). -/
def fieldNamed (name : String) : Option ParamField :=
  paramFields.find? (fun f => f.jsonTag = name)

/-- Function `CleanParams`: returns the dirty flag and clears it. -/
def CleanParams (st : ParamsState) : Bool × ParamsState :=
  (st.dirty, { st with dirty := false })

/-- Function `SetParam`: the result and the package variables afterwards. -/
def SetParam (st : ParamsState) (name value : String) : Bool × ParamsState :=
  match fieldNamed name with
  | none => (false, st)
  | some f =>
    let params :=
      match f.kind with
      | Kind.Int16 | Kind.Int64 =>
        match ParseInt value with
        | some iv => f.setInt st.params iv
        | none => st.params
      | Kind.Uint16 | Kind.Uint64 =>
        match ParseUint value with
        | some iv => f.setUint st.params iv
        | none => st.params
      | Kind.String => f.setString st.params value
      | _ => st.params
    (true, { params := params, dirty := true })

/-- Function `CheckParamType`.  `floatOk` says whether `strconv.ParseFloat(value, 64)`
succeeds with a positive result, `jsonOk` whether `json.Unmarshal` of the value into a
map succeeds. -/
def CheckParamType (floatOk jsonOk : String → Bool) (name value : String) : Bool :=
  match fieldNamed name with
  | none => false
  | some f =>
    if f.typeTag = "int" then (ParseInt value).isSome
    else if f.typeTag = "uint" then (ParseUint value).isSome
    else if f.typeTag = "float" then floatOk value
    else if f.typeTag = "json" then jsonOk value
    else if f.typeTag = "string" then true
    else false

/-- A call on the parameter registry. -/
inductive ParamCall where
  | set (name value : String)
  | clean
deriving DecidableEq, Repr

/-- The package variables after one call. -/
def paramStep (st : ParamsState) : ParamCall → ParamsState
  | ParamCall.set name value => (SetParam st name value).2
  | ParamCall.clean => (CleanParams st).2

/-- The package variables after a sequence of calls. -/
def paramRun (st : ParamsState) (calls : List ParamCall) : ParamsState :=
  calls.foldl paramStep st

/-- The `json` tags of the fields of `Params`. -/
def jsonTags : List String := paramFields.map ParamField.jsonTag

/-! ## The database path of `loadState` -/

/-- The loop of the library function `path.Ext`, from the last character backwards:
`none` at a slash or at the start, the suffix from the dot on at the first dot. -/
def extScan : List Char → List Char → Option (List Char)
  | [], _ => none
  | c :: cs, acc =>
    if c = '/' then none
    else if c = '.' then some ('.' :: acc)
    else extScan cs (c :: acc)

/-- Library function `path.Ext`: the suffix beginning at the final dot in the final
slash-separated element of the path, empty if there is no dot. -/
def Ext (p : List Char) : List Char := (extScan p.reverse []).getD []

/-- Library function `strings.TrimSuffix`. -/
def TrimSuffix (s suffix : List Char) : List Char :=
  if suffix.isSuffixOf s then s.take (s.length - suffix.length) else s

/-- The slash-separated elements of a path. -/
def splitSlash : List Char → List (List Char)
  | [] => [[]]
  | c :: cs =>
    match splitSlash cs with
    | [] => [[c]]
    | e :: es => if c = '/' then [] :: e :: es else (c :: e) :: es

/-- The elements that `path.Clean` keeps, last one first: empty elements and `.` are
dropped, `..` removes the element before it, or is kept in front of a path that is
not rooted. -/
def cleanElems (rooted : Bool) : List (List Char) → List (List Char) → List (List Char)
  | [], out => out
  | e :: es, out =>
    if e = [] ∨ e = ['.'] then cleanElems rooted es out
    else if e = ['.', '.'] then
      match out with
      | top :: rest =>
        if top = ['.', '.'] then cleanElems rooted es (e :: out)
        else cleanElems rooted es rest
      | [] => if rooted then cleanElems rooted es [] else cleanElems rooted es [e]
    else cleanElems rooted es (e :: out)

/-- Library function `path.Clean`. -/
def Clean (p : List Char) : List Char :=
  match p with
  | [] => ['.']
  | c :: _ =>
    let rooted : Bool := c = '/'
    let elems := (cleanElems rooted (splitSlash p) []).reverse
    if rooted then '/' :: ['/'].intercalate elems
    else if elems = [] then ['.'] else ['/'].intercalate elems

/-- The part of a path up to and with the last slash, and the part after it
(`path.Split`). -/
def Split (p : List Char) : List Char × List Char :=
  let last := ((splitSlash p).getLast?).getD []
  (p.take (p.length - last.length), last)

/-- Library function `path.Dir`. -/
def Dir (p : List Char) : List Char := Clean (Split p).1

/-- A path without its trailing slashes. -/
def stripSlashes (p : List Char) : List Char :=
  (p.reverse.dropWhile (fun c => c = '/')).reverse

/-- Library function `path.Base`. -/
def Base (p : List Char) : List Char :=
  match p with
  | [] => ['.']
  | _ =>
    let last := (Split (stripSlashes p)).2
    if last = [] then ['/'] else last

/-- Library function `filepath.Abs` (Unix): an absolute path is cleaned, another path is
joined to the working directory `wd`; `none` when the working directory cannot be
determined. -/
def Abs (wd : Option (List Char)) (p : List Char) : Option (List Char) :=
  if p.head? = some '/' then some (Clean p)
  else
    match wd with
    | none => none
    | some dir => some (Clean (dir ++ '/' :: p))

/-- What `path.Clean` puts in front of the last element of a path whose earlier
elements are `elems`, when that last element is kept. -/
def cleanFront (rooted : Bool) (elems : List (List Char)) : List Char :=
  (if rooted then ['/'] else []) ++
    (if (cleanElems rooted elems []).reverse = [] then []
     else ['/'].intercalate (cleanElems rooted elems []).reverse ++ ['/'])

/-- The database that `loadState` opens: the memory database, or the LevelDB database
`name` in the directory `dir`. -/
inductive DbTarget where
  | memory
  | levelDB (name dir : String)
deriving DecidableEq, Repr

/-- Function `loadState` up to the opening of the database: the database it opens for
`dbName`, or the error `Invalid Database Name`; `wd` is the working directory of the
process. -/
def loadState (wd : Option String) (dbName : String) : Except String DbTarget :=
  if dbName = "" then Except.ok DbTarget.memory
  else
    match Abs (wd.map String.toList) dbName.toList with
    | none => Except.error "Invalid Database Name"
    | some dbPath =>
      let dbPath := TrimSuffix dbPath (Ext dbPath)
      let dir := Dir dbPath
      let name := Base dbPath
      Except.ok (DbTarget.levelDB (String.mk name) (String.mk dir))

/-- The application after the empty key is written with value 100 on `appAt4` and
committed at height 5. -/
def appEmptyKey5 : StoreApp SpecState :=
  { Name := "travis",
    state := { versions := [(5, [([], [100]), ([98, 111, 98], [7])]),
                            (4, [([98, 111, 98], [7])])],
               append := [], historySize := 10 },
    pending := [], height := 5 }

/-! ## The loop of `AddValChange` on pointers -/

/-- The loop of `pubKeyIndex` on pointers, started at position `i`: `none` is the nil
pointer, and reading `PubKey` through a nil pointer (`val.PubKey`, then `v.PubKey`) is
a panic. -/
def pubKeyIndexPtrFrom (val : Option Validator) :
    List (Option Validator) → Nat → Except String Int
  | [], _ => Except.ok (-1)
  | v :: rest, i =>
    match val, v with
    | some a, some b =>
      if a.PubKey = b.PubKey then Except.ok (i : Int) else pubKeyIndexPtrFrom val rest (i + 1)
    | _, _ => Except.error nilDeref

/-- Function `pubKeyIndex` on pointers. -/
def pubKeyIndexPtr (val : Option Validator) (list : List (Option Validator)) :
    Except String Int :=
  pubKeyIndexPtrFrom val list 0

/-- One iteration of the loop of `AddValChange` on a pending slice of pointers. -/
def addValStepPtr (pending : List (Option Validator)) (d : Option Validator) :
    Except String (List (Option Validator)) :=
  match pubKeyIndexPtr d pending with
  | Except.error e => Except.error e
  | Except.ok idx => Except.ok (if idx ≥ 0 then pending.set idx.toNat d else pending ++ [d])

/-- The loop of `AddValChange` on a pending slice of pointers: the pending slice after
all diffs, or the panic of the first nil dereference. -/
def addValChangesPtr (pending : List (Option Validator)) :
    List (Option Validator) → Except String (List (Option Validator))
  | [] => Except.ok pending
  | d :: ds =>
    match addValStepPtr pending d with
    | Except.error e => Except.error e
    | Except.ok p => addValChangesPtr p ds

/-! ## The tree of a version, its root hash and its proofs -/

/-- Modelled from the spec: the tree of one version (`a balanced, persistent search tree
keyed by raw bytes`), with the key/value pairs at the leaves. -/
inductive MerkleTree where
  | empty
  | leaf (key value : Bytes)
  | node (left right : MerkleTree)
deriving DecidableEq, Repr

/-- A byte string behind its length, so that a concatenation of two can be read in one
way only. -/
def frame (b : Bytes) : Bytes := b.length :: b

/-- Modelled from the spec: the hash of a leaf, for a hash function `H` on bytes. -/
def leafHash (H : Bytes → Bytes) (key value : Bytes) : Bytes :=
  H (0 :: (frame key ++ frame value))

/-- Modelled from the spec: the hash of an inner node from the hashes of its children. -/
def nodeHash (H : Bytes → Bytes) (left right : Bytes) : Bytes :=
  H (1 :: (frame left ++ frame right))

/-- Modelled from the spec: the hash of a tree; at the root it is the `deterministic root
hash` of the version. -/
def MerkleTree.hash (H : Bytes → Bytes) : MerkleTree → Bytes
  | MerkleTree.empty => H []
  | MerkleTree.leaf key value => leafHash H key value
  | MerkleTree.node left right => nodeHash H (left.hash H) (right.hash H)

/-- Modelled from the spec: the balanced tree over a list of pairs, halving the list at
every node; `fuel` bounds the depth and the length of the list is enough. -/
def MerkleTree.build : Nat → Snapshot → MerkleTree
  | 0, _ => MerkleTree.empty
  | _ + 1, [] => MerkleTree.empty
  | _ + 1, [e] => MerkleTree.leaf e.1 e.2
  | fuel + 1, e1 :: e2 :: rest =>
    MerkleTree.node
      (MerkleTree.build fuel ((e1 :: e2 :: rest).take ((rest.length + 2) / 2)))
      (MerkleTree.build fuel ((e1 :: e2 :: rest).drop ((rest.length + 2) / 2)))

/-- Modelled from the spec: the tree of a version; its leaves are the pairs of the
version in the order of the list (`treeOf_leaves`). -/
def treeOf (snap : Snapshot) : MerkleTree := MerkleTree.build snap.length snap

/-- One step of a proof, from a node to its parent: the hash of the sibling, and whether
the sibling is the left child. -/
structure ProofStep where
  siblingLeft : Bool
  sibling : Bytes
deriving DecidableEq, Repr

/-- Modelled from the spec: the proof of a key in a tree, the `path of sibling hashes from
a leaf to the root`, for the first leaf that holds the key; `none` when no leaf holds
it. -/
def MerkleTree.path (H : Bytes → Bytes) : MerkleTree → Bytes → Option (List ProofStep)
  | MerkleTree.empty, _ => none
  | MerkleTree.leaf k _, key => if k = key then some [] else none
  | MerkleTree.node left right, key =>
    match left.path H key with
    | some p => some (p ++ [⟨false, right.hash H⟩])
    | none =>
      match right.path H key with
      | some p => some (p ++ [⟨true, left.hash H⟩])
      | none => none

/-- The value at the first leaf that holds the key. -/
def MerkleTree.find : MerkleTree → Bytes → Option Bytes
  | MerkleTree.empty, _ => none
  | MerkleTree.leaf k v, key => if k = key then some v else none
  | MerkleTree.node left right, key =>
    match left.find key with
    | some v => some v
    | none => right.find key

/-- The pairs at the leaves of a tree, from left to right. -/
def MerkleTree.leaves : MerkleTree → Snapshot
  | MerkleTree.empty => []
  | MerkleTree.leaf k v => [(k, v)]
  | MerkleTree.node left right => left.leaves ++ right.leaves

/-- Modelled from the spec: the hash at the root recomputed from the hash of a leaf and
the sibling hashes of a proof (`verifiable by recomputing the root hash independently
of the serving process`). -/
def climb (H : Bytes → Bytes) (h : Bytes) : List ProofStep → Bytes
  | [] => h
  | s :: rest =>
    climb H (if s.siblingLeft then nodeHash H s.sibling h else nodeHash H h s.sibling) rest

/-- The serialized form of a proof: for every step the side, the length of the sibling
hash and the sibling hash. -/
def encodeProof : List ProofStep → Bytes
  | [] => []
  | s :: rest => (if s.siblingLeft then 1 else 0) :: s.sibling.length :: (s.sibling ++ encodeProof rest)

/-- Reading of a serialized proof, at most `fuel` steps; `none` for bytes that are not a
serialized proof. -/
def decodeProofN : Nat → Bytes → Option (List ProofStep)
  | _, [] => some []
  | 0, _ :: _ => none
  | _ + 1, [_] => none
  | fuel + 1, side :: len :: rest =>
    if len ≤ rest.length then
      match decodeProofN fuel (rest.drop len) with
      | some steps => some (⟨decide (side = 1), rest.take len⟩ :: steps)
      | none => none
    else none

/-- Reading of a serialized proof. -/
def decodeProof (proof : Bytes) : Option (List ProofStep) := decodeProofN proof.length proof

/-- Modelled from the spec: the root hash of a version. -/
def merkleRoot (H : Bytes → Bytes) (snap : Snapshot) : Bytes := (treeOf snap).hash H

/-- Modelled from the spec: the serialized proof of a key in a version (empty when the
version does not hold the key: proofs of absence are not modelled). -/
def merkleProof (H : Bytes → Bytes) (snap : Snapshot) (key : Bytes) : Bytes :=
  match (treeOf snap).path H key with
  | some p => encodeProof p
  | none => []

/-- Modelled from the spec: the check of a proof of `(key, value)` against a root hash,
made without the tree: the root hash is recomputed from the pair and the sibling
hashes and compared. -/
def merkleVerify (H : Bytes → Bytes) (root key value proof : Bytes) : Bool :=
  match decodeProof proof with
  | some p => climb H (leafHash H key value) p = root
  | none => false

/-- Modelled from the spec: the state manager over trees with hash function `H`. -/
def merkleOps (H : Bytes → Bytes) : StateOps SpecState := specOps (merkleRoot H) (merkleProof H)

/-- Modelled from the spec: the writes of one block, through the Append overlay. -/
def StoreApp.writeAll (app : StoreApp SpecState) (writes : List (Bytes × Bytes)) :
    StoreApp SpecState :=
  writes.foldl (fun a kv => a.set kv.1 kv.2) app

/-- One block: its writes through the Append overlay, then `Commit`. -/
def commitBlock (ops : StateOps SpecState) (app : StoreApp SpecState)
    (writes : List (Bytes × Bytes)) : Except String (StoreApp SpecState) :=
  (Commit ops (app.writeAll writes)).map Prod.snd

/-- A sequence of blocks, or the panic of the first commit that fails. -/
def commitBlocks (ops : StateOps SpecState) (app : StoreApp SpecState) :
    List (List (Bytes × Bytes)) → Except String (StoreApp SpecState)
  | [] => Except.ok app
  | writes :: rest =>
    match commitBlock ops app writes with
    | Except.error e => Except.error e
    | Except.ok app1 => commitBlocks ops app1 rest

/-- A hash function for the scenarios: the sum of the bytes modulo 251, and their
number. -/
def toyHash (b : Bytes) : Bytes := [b.sum % 251, b.length]

/-! ## Validator change set: `pubKeyIndex` and `AddValChange` -/

theorem pubKeyIndexFrom_spec (d : Validator) (l : List Validator) (i : Nat) :
    (pubKeyIndexFrom d l i = -1 ∧ (∀ v ∈ l, v.PubKey ≠ d.PubKey) ∧ upsert d l = l ++ [d]) ∨
    (∃ j : Nat, pubKeyIndexFrom d l i = ((i + j : Nat) : Int) ∧ j < l.length ∧
      (∃ v, l[j]? = some v ∧ v.PubKey = d.PubKey) ∧
      (∀ j1 v, j1 < j → l[j1]? = some v → v.PubKey ≠ d.PubKey) ∧
      upsert d l = l.set j d) := by
  induction l generalizing i with
  | nil => left; simp [pubKeyIndexFrom, upsert]
  | cons v rest ih =>
    by_cases hk : d.PubKey = v.PubKey
    · right
      refine ⟨0, ?_, by simp, ⟨v, by simp, hk.symm⟩, ?_, ?_⟩
      · simp [pubKeyIndexFrom, hk]
      · intro j1 v1 h; omega
      · simp [upsert, hk]
    · rcases ih (i + 1) with ⟨h1, h2, h3⟩ | ⟨j, h1, h2, ⟨w, hw1, hw2⟩, h4, h5⟩
      · left
        refine ⟨by simp [pubKeyIndexFrom, hk, h1], ?_, by simp [upsert, hk, h3]⟩
        intro x hx
        rcases List.mem_cons.1 hx with rfl | hx
        · exact fun h => hk h.symm
        · exact h2 x hx
      · right
        refine ⟨j + 1, ?_, by simp; omega, ⟨w, by simpa using hw1, hw2⟩, ?_, ?_⟩
        · simp only [pubKeyIndexFrom, hk, if_false, h1]; push_cast; ring
        · intro j1 x hj hx
          cases j1 with
          | zero =>
            simp at hx; subst hx; exact fun h => hk h.symm
          | succ j2 =>
            simp at hx; exact h4 j2 x (by omega) hx
        · simp [upsert, hk, h5]

theorem addValStep_eq_upsert (p : List Validator) (d : Validator) :
    addValStep p d = upsert d p := by
  unfold addValStep pubKeyIndex
  rcases pubKeyIndexFrom_spec d p 0 with ⟨h1, _, h3⟩ | ⟨j, h1, _, _, _, h5⟩
  · simp [h1, h3]
  · simp only [h1, h5]
    have : ((0 + j : Nat) : Int) ≥ 0 := by omega
    simp [this]

theorem keysOf_upsert (d : Validator) (p : List Validator) :
    keysOf (upsert d p) = if d.PubKey ∈ keysOf p then keysOf p else keysOf p ++ [d.PubKey] := by
  induction p with
  | nil => simp [upsert, keysOf]
  | cons v rest ih =>
    by_cases hk : d.PubKey = v.PubKey
    · simp [upsert, keysOf, hk]
    · have ih1 := ih
      simp only [keysOf] at ih1
      by_cases hm : d.PubKey ∈ rest.map Validator.PubKey
      · simp [upsert, keysOf, hk, hm, ih1]
      · simp only [upsert, keysOf, hk, if_false, List.map_cons, ih1, hm, List.mem_cons, false_or,
          List.cons_append]

theorem nodup_keysOf_upsert (d : Validator) (p : List Validator) (h : (keysOf p).Nodup) :
    (keysOf (upsert d p)).Nodup := by
  rw [keysOf_upsert]
  split
  · exact h
  · rename_i hm
    rw [List.nodup_append]
    refine ⟨h, List.nodup_singleton _, ?_⟩
    intro a ha hb
    simp at hb
    subst hb
    exact hm ha

theorem nodup_keysOf_addValChanges (diffs p : List Validator) (h : (keysOf p).Nodup) :
    (keysOf (addValChanges p diffs)).Nodup := by
  induction diffs generalizing p with
  | nil => simpa [addValChanges] using h
  | cons d ds ih =>
    simp only [addValChanges, List.foldl_cons]
    rw [addValStep_eq_upsert]
    exact ih _ (nodup_keysOf_upsert d p h)

theorem firstAppearance_filter (q : Bytes → Bool) (l : List Bytes) :
    firstAppearance (l.filter q) = (firstAppearance l).filter q := by
  induction l with
  | nil => rfl
  | cons k ks ih =>
    by_cases hq : q k = true
    · simp only [List.filter_cons, hq, if_true, firstAppearance, ih, List.filter_filter]
      congr 1
      apply List.filter_congr
      intro x _
      exact Bool.and_comm _ _
    · simp only [List.filter_cons, hq, firstAppearance, List.filter_filter]
      simp only [Bool.false_eq_true, if_false]
      rw [ih]
      apply List.filter_congr
      intro x _
      by_cases hx : x = k
      · subst hx; simp [hq]
      · simp [hx]

theorem keysOf_addValChanges (diffs p : List Validator) :
    keysOf (addValChanges p diffs) =
      keysOf p ++ firstAppearance ((keysOf diffs).filter (fun k => k ∉ keysOf p)) := by
  induction diffs generalizing p with
  | nil => simp [addValChanges, keysOf, firstAppearance]
  | cons d ds ih =>
    have hstep : addValChanges p (d :: ds) = addValChanges (upsert d p) ds := by
      simp [addValChanges, addValStep_eq_upsert]
    rw [hstep, ih, keysOf_upsert]
    have hcons : keysOf (d :: ds) = d.PubKey :: keysOf ds := rfl
    rw [hcons, List.filter_cons]
    by_cases hm : d.PubKey ∈ keysOf p
    · have hdec : decide (d.PubKey ∉ keysOf p) = false := by simp [hm]
      simp only [hdec, Bool.false_eq_true, if_false]
      simp only [hm, if_true]
    · have hdec : decide (d.PubKey ∉ keysOf p) = true := by simp [hm]
      simp only [hdec, if_true]
      simp only [hm, if_false]
      rw [firstAppearance, ← firstAppearance_filter, List.filter_filter, List.append_assoc]
      simp only [List.singleton_append]
      congr 3
      apply List.filter_congr
      intro x _
      simp [Bool.and_comm]

theorem mem_upsert_of_nodup (d v : Validator) (p : List Validator) (h : (keysOf p).Nodup)
    (hv : v ∈ upsert d p) : v = d ∨ (v ∈ p ∧ v.PubKey ≠ d.PubKey) := by
  induction p with
  | nil => simp [upsert] at hv; exact Or.inl hv
  | cons w rest ih =>
    simp only [keysOf, List.map_cons, List.nodup_cons] at h
    by_cases hk : d.PubKey = w.PubKey
    · simp only [upsert, hk, if_true, List.mem_cons] at hv
      rcases hv with hv | hv
      · exact Or.inl hv
      · right
        refine ⟨List.mem_cons_of_mem _ hv, ?_⟩
        intro he
        apply h.1
        rw [← hk, ← he]
        exact List.mem_map_of_mem _ hv
    · simp only [upsert, hk, if_false, List.mem_cons] at hv
      rcases hv with hv | hv
      · right
        subst hv
        exact ⟨List.mem_cons_self _ _, fun he => hk he.symm⟩
      · rcases ih h.2 hv with h1 | ⟨h1, h2⟩
        · exact Or.inl h1
        · exact Or.inr ⟨List.mem_cons_of_mem _ h1, h2⟩

theorem lastDiff_cons (k : Bytes) (d : Validator) (ds : List Validator) :
    lastDiff k (d :: ds) =
      (lastDiff k ds).or (if d.PubKey = k then some d else none) := by
  simp only [lastDiff, List.reverse_cons, List.find?_append]
  congr 1
  by_cases h : d.PubKey = k <;> simp [List.find?, h]

theorem mem_addValChanges_value (diffs p : List Validator) (h : (keysOf p).Nodup)
    (v : Validator) (hv : v ∈ addValChanges p diffs) :
    lastDiff v.PubKey diffs = some v ∨ (lastDiff v.PubKey diffs = none ∧ v ∈ p) := by
  induction diffs generalizing p with
  | nil => right; exact ⟨by simp [lastDiff], by simpa [addValChanges] using hv⟩
  | cons d ds ih =>
    have hstep : addValChanges p (d :: ds) = addValChanges (upsert d p) ds := by
      simp [addValChanges, addValStep_eq_upsert]
    rw [hstep] at hv
    rw [lastDiff_cons]
    rcases ih (upsert d p) (nodup_keysOf_upsert d p h) hv with h1 | ⟨h1, h2⟩
    · left; simp [h1]
    · rcases mem_upsert_of_nodup d v p h h2 with h3 | ⟨h3, h4⟩
      · left; subst h3; simp [h1]
      · right
        refine ⟨?_, h3⟩
        have hne : ¬ d.PubKey = v.PubKey := fun he => h4 he.symm
        simp [h1, hne]

theorem addValChanges_append (p ds : List Validator) (d : Validator) :
    addValChanges p (ds ++ [d]) = addValStep (addValChanges p ds) d := by
  simp [addValChanges, List.foldl_append]

theorem index_unique_of_nodup (p : List Validator) (h : (keysOf p).Nodup) (i j : Nat)
    (v w : Validator) (hv : p[i]? = some v) (hw : p[j]? = some w)
    (hk : v.PubKey = w.PubKey) : i = j := by
  have hi : i < (keysOf p).length := by
    have := (List.getElem?_eq_some.1 hv).1
    simpa [keysOf] using this
  apply List.getElem?_inj hi h
  simp [keysOf, List.getElem?_map, hv, hw, hk]

theorem addValStep_present (p : List Validator) (d : Validator) (h : (keysOf p).Nodup)
    (i : Nat) (v : Validator) (hv : p[i]? = some v) (hk : v.PubKey = d.PubKey) :
    addValStep p d = p.set i d := by
  rw [addValStep_eq_upsert]
  rcases pubKeyIndexFrom_spec d p 0 with ⟨_, h2, _⟩ | ⟨j, _, _, ⟨w, hw1, hw2⟩, _, h5⟩
  · exact absurd hk (h2 v (List.getElem?_mem hv))
  · have : i = j := index_unique_of_nodup p h i j v w hv hw1 (hk.trans hw2.symm)
    rw [this, h5]

theorem addValStep_absent (p : List Validator) (d : Validator)
    (ha : ∀ v ∈ p, v.PubKey ≠ d.PubKey) : addValStep p d = p ++ [d] := by
  rw [addValStep_eq_upsert]
  rcases pubKeyIndexFrom_spec d p 0 with ⟨_, _, h3⟩ | ⟨j, _, _, ⟨w, hw1, hw2⟩, _, _⟩
  · exact h3
  · exact absurd hw2 (ha w (List.getElem?_mem hw1))

/-- C1: on a pending list with pairwise-distinct keys, `AddValChange` handles the diffs
one at a time in order; a diff whose key is held at index `i` replaces that entry in
place, a diff whose key is not held is appended (and the keys stay distinct).  The
resulting keys are the old keys followed by the new keys in order of first appearance,
and every resulting entry is the last diff with its key, or the old entry when no diff
has its key. -/
theorem AddValChange_merge {σ : Type} (app : StoreApp σ) (diffs : List Validator)
    (hnd : (keysOf app.pending).Nodup) :
    (∀ (ds : List Validator) (d : Validator),
        (keysOf (AddValChange app ds).pending).Nodup ∧
        (∀ (i : Nat) (v : Validator), (AddValChange app ds).pending[i]? = some v →
            v.PubKey = d.PubKey →
            (AddValChange app (ds ++ [d])).pending = (AddValChange app ds).pending.set i d) ∧
        ((∀ v ∈ (AddValChange app ds).pending, v.PubKey ≠ d.PubKey) →
            (AddValChange app (ds ++ [d])).pending = (AddValChange app ds).pending ++ [d])) ∧
    keysOf (AddValChange app diffs).pending =
      keysOf app.pending ++
        firstAppearance ((keysOf diffs).filter (fun k => k ∉ keysOf app.pending)) ∧
    (∀ v ∈ (AddValChange app diffs).pending,
        lastDiff v.PubKey diffs = some v ∨
          (lastDiff v.PubKey diffs = none ∧ v ∈ app.pending)) := by
  refine ⟨?_, keysOf_addValChanges diffs app.pending, ?_⟩
  · intro ds d
    have hnd1 := nodup_keysOf_addValChanges ds app.pending hnd
    refine ⟨hnd1, ?_, ?_⟩
    · intro i v hv hk
      show addValChanges app.pending (ds ++ [d]) = (addValChanges app.pending ds).set i d
      rw [addValChanges_append]
      exact addValStep_present _ d hnd1 i v hv hk
    · intro ha
      show addValChanges app.pending (ds ++ [d]) = addValChanges app.pending ds ++ [d]
      rw [addValChanges_append]
      exact addValStep_absent _ d ha
  · intro v hv
    exact mem_addValChanges_value diffs app.pending hnd v hv

/-- C1 at a concrete input: pending `[A↦10, B↦5]` and diffs `[B↦6, C↦1, A↦20, C↦2]`. -/
theorem AddValChange_merge_witness :
    (keysOf (appWith [⟨keyA, 10⟩, ⟨keyB, 5⟩]).pending).Nodup ∧
    (AddValChange (appWith [⟨keyA, 10⟩, ⟨keyB, 5⟩])
        [⟨keyB, 6⟩, ⟨[67], 1⟩, ⟨keyA, 20⟩, ⟨[67], 2⟩]).pending =
      [⟨keyA, 20⟩, ⟨keyB, 6⟩, ⟨[67], 2⟩] ∧
    keysOf (AddValChange (appWith [⟨keyA, 10⟩, ⟨keyB, 5⟩])
        [⟨keyB, 6⟩, ⟨[67], 1⟩, ⟨keyA, 20⟩, ⟨[67], 2⟩]).pending =
      keysOf (appWith [⟨keyA, 10⟩, ⟨keyB, 5⟩]).pending ++
        firstAppearance ((keysOf [⟨keyB, 6⟩, ⟨[67], 1⟩, ⟨keyA, 20⟩, ⟨[67], 2⟩]).filter
          (fun k => k ∉ keysOf (appWith [⟨keyA, 10⟩, ⟨keyB, 5⟩]).pending)) :=
  ⟨by decide, by decide,
    (AddValChange_merge (appWith [⟨keyA, 10⟩, ⟨keyB, 5⟩])
      [⟨keyB, 6⟩, ⟨[67], 1⟩, ⟨keyA, 20⟩, ⟨[67], 2⟩] (by decide)).2.1⟩

/-! ## Frame lemmas for the calls -/

theorem Commit_of_ok {σ : Type} (ops : StateOps σ) (app : StoreApp σ) (hash : Bytes) (st : σ)
    (h : ops.Commit app.state (WorkingHeight app) = Except.ok (hash, st)) :
    Commit ops app = Except.ok
      (if ops.Size st = 0 then
          { Code := CodeType.OK, Data := [], Log := "Empty hash for empty tree" }
        else { Code := CodeType.OK, Data := hash, Log := "" },
       { app with height := WorkingHeight app, state := st }) := by
  unfold WorkingHeight at h
  unfold Commit
  simp only [h, WorkingHeight]
  split <;> rfl

theorem Commit_ok_inv {σ : Type} (ops : StateOps σ) (app app1 : StoreApp σ)
    (r : ResponseCommit) (h : Commit ops app = Except.ok (r, app1)) :
    ∃ hash st, ops.Commit app.state (WorkingHeight app) = Except.ok (hash, st) ∧
      app1 = { app with height := WorkingHeight app, state := st } ∧
      r = (if ops.Size st = 0 then
          { Code := CodeType.OK, Data := [], Log := "Empty hash for empty tree" }
        else { Code := CodeType.OK, Data := hash, Log := "" }) := by
  cases hc : ops.Commit app.state (WorkingHeight app) with
  | error e =>
    unfold WorkingHeight at hc
    simp [Commit, hc] at h
  | ok pr =>
    obtain ⟨hash, st⟩ := pr
    rw [Commit_of_ok ops app hash st hc] at h
    injection h with h
    injection h with h1 h2
    exact ⟨hash, st, rfl, h2.symm, h1.symm⟩

theorem Query_ok_app {σ : Type} (ops : StateOps σ) (stake : StakeOps) (app app1 : StoreApp σ)
    (req : RequestQuery) (r : ResponseQuery)
    (h : Query ops stake app req = Except.ok (r, app1)) : app1 = app := by
  unfold Query at h
  simp only at h
  split_ifs at h <;> first
    | (injection h with h; injection h with _ h2; exact h2.symm)
    | (split at h <;> first
        | (injection h with h; injection h with _ h2; exact h2.symm)
        | (exact absurd h (by simp)))

theorem step_pending {σ : Type} (ops : StateOps σ) (stake : StakeOps) (app app1 : StoreApp σ)
    (op : Op) (h : step ops stake app op = Except.ok app1) :
    app1.pending = pendingAfter app.pending op := by
  cases op with
  | addValChange diffs => simp [step, AddValChange] at h; subst h; rfl
  | endBlock => simp [step, EndBlock] at h; subst h; rfl
  | commit =>
    simp only [step] at h
    cases hc : Commit ops app with
    | error e => simp [hc, Except.map] at h
    | ok pr =>
      obtain ⟨r, a⟩ := pr
      simp [hc, Except.map] at h
      subst h
      obtain ⟨hash, st, _, h2, _⟩ := Commit_ok_inv ops app a r hc
      rw [h2]
      rfl
  | query req =>
    simp only [step] at h
    cases hq : Query ops stake app req with
    | error e => simp [hq, Except.map] at h
    | ok pr =>
      obtain ⟨r, a⟩ := pr
      simp [hq, Except.map] at h
      subst h
      rw [Query_ok_app ops stake app a req r hq]
      rfl
  | info => simp [step, Info] at h; subst h; rfl
  | beginBlock => simp [step, BeginBlock] at h; subst h; rfl
  | initChain => simp [step, InitChain] at h; subst h; rfl

theorem step_nodup {σ : Type} (ops : StateOps σ) (stake : StakeOps) (app app1 : StoreApp σ)
    (op : Op) (hnd : (keysOf app.pending).Nodup)
    (h : step ops stake app op = Except.ok app1) : (keysOf app1.pending).Nodup := by
  have hp := step_pending ops stake app app1 op h
  cases op <;> simp only [pendingAfter] at hp <;> rw [hp]
  · exact nodup_keysOf_addValChanges _ _ hnd
  · simp [keysOf]
  all_goals exact hnd

theorem run_nodup {σ : Type} (ops : StateOps σ) (stake : StakeOps) (calls : List Op)
    (app app1 : StoreApp σ) (hnd : (keysOf app.pending).Nodup)
    (h : run ops stake app calls = Except.ok app1) : (keysOf app1.pending).Nodup := by
  induction calls generalizing app with
  | nil =>
    simp only [run] at h
    injection h with h
    subst h
    exact hnd
  | cons op rest ih =>
    simp only [run] at h
    cases hs : step ops stake app op with
    | error e => simp [hs] at h
    | ok a =>
      simp only [hs] at h
      exact ih a (step_nodup ops stake app a op hnd hs) h

/-- C2: in every state reached from an application with empty pending list by any
sequence of calls (`AddValChange` with arbitrary, possibly repeating diffs, `EndBlock`,
`Commit`, `Query`, `Info`, `BeginBlock`, `InitChain`), no two pending entries have the
same key, and the validator updates that `EndBlock` returns there have distinct keys. -/
theorem pending_keys_distinct {σ : Type} (ops : StateOps σ) (stake : StakeOps)
    (fresh app : StoreApp σ) (calls : List Op) (hfresh : fresh.pending = [])
    (hrun : run ops stake fresh calls = Except.ok app) :
    (keysOf app.pending).Nodup ∧ (keysOf (EndBlock app).1.ValidatorUpdates).Nodup := by
  have h0 : (keysOf fresh.pending).Nodup := by simp [hfresh, keysOf]
  have h1 := run_nodup ops stake calls fresh app h0 hrun
  exact ⟨h1, h1⟩

/-- C2 at a concrete run: a query, then one `AddValChange` whose diffs repeat the key
`A`, then `Info`. -/
theorem pending_keys_distinct_witness :
    appAt4.pending = [] ∧
    run demoOps demoStake appAt4
        [Op.query ⟨alice, "/store", 0, true⟩,
         Op.addValChange [⟨keyA, 10⟩, ⟨keyB, 5⟩, ⟨keyA, 20⟩], Op.info] =
      Except.ok (appWith [⟨keyA, 20⟩, ⟨keyB, 5⟩]) ∧
    (keysOf (appWith [⟨keyA, 20⟩, ⟨keyB, 5⟩]).pending).Nodup :=
  ⟨rfl, rfl, (pending_keys_distinct demoOps demoStake appAt4 (appWith [⟨keyA, 20⟩, ⟨keyB, 5⟩])
      [Op.query ⟨alice, "/store", 0, true⟩,
       Op.addValChange [⟨keyA, 10⟩, ⟨keyB, 5⟩, ⟨keyA, 20⟩], Op.info] rfl rfl).1⟩

/-- C3: `EndBlock` returns exactly the pending list and leaves it empty (the other
fields untouched), so a second `EndBlock` returns the empty list; and from an empty
pending list, `AddValChange([{a,10}])`, `AddValChange([{a,20},{b,5}])`, `EndBlock`
returns `[{a,20},{b,5}]` and leaves pending empty, for distinct keys `a`, `b`. -/
theorem EndBlock_drains {σ : Type} (app : StoreApp σ) (a b : Bytes) (hab : a ≠ b) :
    (EndBlock app).1.ValidatorUpdates = app.pending ∧
    (EndBlock app).2 = { app with pending := [] } ∧
    (EndBlock (EndBlock app).2).1.ValidatorUpdates = [] ∧
    (EndBlock (AddValChange (AddValChange (EndBlock app).2 [⟨a, 10⟩])
        [⟨a, 20⟩, ⟨b, 5⟩])).1.ValidatorUpdates = [⟨a, 20⟩, ⟨b, 5⟩] ∧
    (EndBlock (AddValChange (AddValChange (EndBlock app).2 [⟨a, 10⟩])
        [⟨a, 20⟩, ⟨b, 5⟩])).2.pending = [] := by
  refine ⟨rfl, rfl, rfl, ?_, rfl⟩
  have hba : ¬ b = a := fun h => hab h.symm
  simp [EndBlock, AddValChange, addValChanges, addValStep, pubKeyIndex, pubKeyIndexFrom, hba]

/-- C3 on the scenario of the spec: a new application, `AddValChange([{A,10}])`,
`AddValChange([{A,20},{B,5}])`, then `EndBlock`. -/
theorem EndBlock_drains_witness :
    keyA ≠ keyB ∧
    EndBlock (AddValChange (AddValChange appAt4 [⟨keyA, 10⟩]) [⟨keyA, 20⟩, ⟨keyB, 5⟩]) =
      (⟨[⟨keyA, 20⟩, ⟨keyB, 5⟩]⟩, appAt4) ∧
    (EndBlock (AddValChange (AddValChange (EndBlock appAt4).2 [⟨keyA, 10⟩])
        [⟨keyA, 20⟩, ⟨keyB, 5⟩])).1.ValidatorUpdates = [⟨keyA, 20⟩, ⟨keyB, 5⟩] :=
  ⟨by decide, rfl, (EndBlock_drains appAt4 keyA keyB (by decide)).2.2.2.1⟩

/-! ## Heights -/

theorem wrapInt64_of_range (x : Int) (h1 : -2 ^ 63 ≤ x) (h2 : x < 2 ^ 63) : wrapInt64 x = x := by
  unfold wrapInt64
  omega

theorem step_height {σ : Type} (ops : StateOps σ) (stake : StakeOps) (app app1 : StoreApp σ)
    (op : Op) (h : step ops stake app op = Except.ok app1) :
    app1.height = heightAfter app.height op := by
  cases op with
  | addValChange diffs => simp [step, AddValChange] at h; subst h; rfl
  | endBlock => simp [step, EndBlock] at h; subst h; rfl
  | commit =>
    simp only [step] at h
    cases hc : Commit ops app with
    | error e => simp [hc, Except.map] at h
    | ok pr =>
      obtain ⟨r, a⟩ := pr
      simp [hc, Except.map] at h
      subst h
      obtain ⟨hash, st, _, h2, _⟩ := Commit_ok_inv ops app a r hc
      rw [h2]
      rfl
  | query req =>
    simp only [step] at h
    cases hq : Query ops stake app req with
    | error e => simp [hq, Except.map] at h
    | ok pr =>
      obtain ⟨r, a⟩ := pr
      simp [hq, Except.map] at h
      subst h
      rw [Query_ok_app ops stake app a req r hq]
      rfl
  | info => simp [step, Info] at h; subst h; rfl
  | beginBlock => simp [step, BeginBlock] at h; subst h; rfl
  | initChain => simp [step, InitChain] at h; subst h; rfl

theorem run_height {σ : Type} (ops : StateOps σ) (stake : StakeOps) (calls : List Op)
    (app app1 : StoreApp σ) (h : run ops stake app calls = Except.ok app1)
    (hlo : -2 ^ 63 ≤ app.height) (hhi : app.height + commitCount calls < 2 ^ 63) :
    app1.height = app.height + commitCount calls := by
  induction calls generalizing app with
  | nil =>
    simp only [run] at h
    injection h with h
    subst h
    simp [commitCount]
  | cons op rest ih =>
    simp only [run] at h
    cases hs : step ops stake app op with
    | error e => simp [hs] at h
    | ok a =>
      simp only [hs] at h
      have hh := step_height ops stake app a op hs
      cases op with
      | commit =>
        simp only [commitCount, heightAfter] at hh hhi ⊢
        have hw : wrapInt64 (app.height + 1) = app.height + 1 :=
          wrapInt64_of_range _ (by omega) (by push_cast at hhi; omega)
        rw [hw] at hh
        have := ih a h (by omega) (by push_cast at hhi; omega)
        rw [this, hh]
        push_cast
        ring
      | _ =>
        simp only [commitCount, heightAfter] at hh hhi ⊢
        have := ih a h (by omega) (by omega)
        rw [this, hh]

theorem wrapInt64_add_wrap (x y : Int) : wrapInt64 (wrapInt64 x + y) = wrapInt64 (x + y) := by
  unfold wrapInt64
  omega

theorem run_height_wrap {σ : Type} (ops : StateOps σ) (stake : StakeOps) (calls : List Op)
    (app app1 : StoreApp σ) (h : run ops stake app calls = Except.ok app1) :
    wrapInt64 app1.height = wrapInt64 (app.height + commitCount calls) := by
  induction calls generalizing app with
  | nil =>
    simp only [run] at h
    injection h with h
    subst h
    simp [commitCount]
  | cons op rest ih =>
    simp only [run] at h
    cases hs : step ops stake app op with
    | error e => simp [hs] at h
    | ok a =>
      simp only [hs] at h
      have hh := step_height ops stake app a op hs
      have hi := ih a h
      cases op with
      | commit =>
        simp only [commitCount, heightAfter] at hh ⊢
        rw [hi, hh, wrapInt64_add_wrap]
        congr 1
        push_cast
        ring
      | _ =>
        simp only [commitCount, heightAfter] at hh ⊢
        rw [hi, hh]

theorem run_height_int64 {σ : Type} (ops : StateOps σ) (stake : StakeOps) (calls : List Op)
    (app app1 : StoreApp σ) (h : run ops stake app calls = Except.ok app1)
    (hlo : -2 ^ 63 ≤ app.height) (hhi : app.height < 2 ^ 63) :
    -2 ^ 63 ≤ app1.height ∧ app1.height < 2 ^ 63 := by
  induction calls generalizing app with
  | nil =>
    simp only [run] at h
    injection h with h
    subst h
    exact ⟨hlo, hhi⟩
  | cons op rest ih =>
    simp only [run] at h
    cases hs : step ops stake app op with
    | error e => simp [hs] at h
    | ok a =>
      simp only [hs] at h
      have hh := step_height ops stake app a op hs
      cases op with
      | commit =>
        simp only [heightAfter] at hh
        apply ih a h
        · rw [hh]; unfold wrapInt64; omega
        · rw [hh]; unfold wrapInt64; omega
      | _ =>
        simp only [heightAfter] at hh
        exact ih a h (by rw [hh]; exact hlo) (by rw [hh]; exact hhi)

/-- C4: `WorkingHeight` is `CommittedHeight + 1` in `int64`, hence the integer
`CommittedHeight + 1` below the top of the range; a `Commit` that returns has committed
the state at exactly the previous `WorkingHeight` and leaves `CommittedHeight` equal to
it; after any sequence of calls that contains `n` commits and returns, `CommittedHeight`
is `h + n` in `int64`, which is the integer `h + n` as long as that is below `2^63`; and
no call other than `Commit` changes the height. -/
theorem height_advances {σ : Type} (ops : StateOps σ) (stake : StakeOps) (app : StoreApp σ) :
    WorkingHeight app = wrapInt64 (CommittedHeight app + 1) ∧
    (-2 ^ 63 ≤ CommittedHeight app → CommittedHeight app + 1 < 2 ^ 63 →
      WorkingHeight app = CommittedHeight app + 1) ∧
    (∀ (r : ResponseCommit) (app1 : StoreApp σ), Commit ops app = Except.ok (r, app1) →
      (∃ hash, ops.Commit app.state (WorkingHeight app) = Except.ok (hash, app1.state)) ∧
      CommittedHeight app1 = WorkingHeight app) ∧
    (∀ (hash : Bytes) (st : σ), ops.Commit app.state (WorkingHeight app) = Except.ok (hash, st) →
      ∃ r app1, Commit ops app = Except.ok (r, app1) ∧ app1.state = st ∧
        CommittedHeight app1 = WorkingHeight app) ∧
    (∀ (calls : List Op) (app1 : StoreApp σ), run ops stake app calls = Except.ok app1 →
      -2 ^ 63 ≤ CommittedHeight app → CommittedHeight app + commitCount calls < 2 ^ 63 →
      CommittedHeight app1 = CommittedHeight app + commitCount calls) ∧
    (∀ (calls : List Op) (app1 : StoreApp σ), run ops stake app calls = Except.ok app1 →
      -2 ^ 63 ≤ CommittedHeight app → CommittedHeight app < 2 ^ 63 →
      CommittedHeight app1 = wrapInt64 (CommittedHeight app + commitCount calls)) ∧
    (∀ (op : Op) (app1 : StoreApp σ), op ≠ Op.commit →
      step ops stake app op = Except.ok app1 → CommittedHeight app1 = CommittedHeight app) := by
  refine ⟨rfl, ?_, ?_, ?_, ?_, ?_, ?_⟩
  · intro h1 h2
    exact wrapInt64_of_range _ (by unfold CommittedHeight at h1; omega) h2
  · intro r app1 h
    obtain ⟨hash, st, h1, h2, _⟩ := Commit_ok_inv ops app app1 r h
    subst h2
    exact ⟨⟨hash, h1⟩, rfl⟩
  · intro hash st h
    exact ⟨_, _, Commit_of_ok ops app hash st h, rfl, rfl⟩
  · intro calls app1 h hlo hhi
    unfold CommittedHeight at hlo hhi
    exact run_height ops stake calls app app1 h hlo hhi
  · intro calls app1 h hlo hhi
    unfold CommittedHeight at hlo hhi ⊢
    have hr := run_height_int64 ops stake calls app app1 h hlo hhi
    rw [← run_height_wrap ops stake calls app app1 h]
    exact (wrapInt64_of_range _ hr.1 hr.2).symm
  · intro op app1 hne h
    have := step_height ops stake app app1 op h
    cases op <;> first | exact absurd rfl hne | exact this

/-- C4 on a concrete run: two commits with an `Info` in between take height 4 to 6. -/
theorem height_advances_witness :
    run demoOps demoStake appAt4 [Op.commit, Op.info, Op.commit] = Except.ok appPlain6 ∧
    CommittedHeight appPlain6 =
      CommittedHeight appAt4 + commitCount [Op.commit, Op.info, Op.commit] ∧
    CommittedHeight appPlain6 = 6 :=
  ⟨rfl, (height_advances demoOps demoStake appAt4).2.2.2.2.1
      [Op.commit, Op.info, Op.commit] appPlain6 rfl (by decide) (by decide), rfl⟩

/-! ## Query -/

theorem Query_store_unproved {σ : Type} (ops : StateOps σ) (stake : StakeOps)
    (app : StoreApp σ) (key : Bytes) (path : String) (height : Int) (hkey : key ≠ [])
    (hpath : path = "/store" ∨ path = "/key") :
    Query ops stake app ⟨key, path, height, false⟩ =
      Except.ok ({ Code := CodeType.OK, Key := key, Value := ops.Get app.state key,
                   Proof := [], Height := resolveHeight ops app height, Log := "" }, app) := by
  have hne : ¬ key.length = 0 := fun h0 => hkey (List.length_eq_zero.1 h0)
  simp [Query, hne, hpath, ResponseQuery.zero]

/-- C5 (the code departs from the claim): in the scenario (`alice→100` committed at
height 5, `alice→150` at height 6) version 5 is retained and holds 100 for `alice`;
`Query` on `/store` at height 5 with `Prove` set returns 100, but with `Prove` unset it
returns 150, the value of the latest version, under the response height 5. -/
theorem Query_unproved_ignores_height :
    appAt6 = Except.ok app6 ∧
    demoOps.VersionExists app6.state 5 = true ∧
    app6.state.valueAt 5 alice = some [100] ∧
    Query demoOps demoStake app6 ⟨alice, "/store", 5, true⟩ =
      Except.ok ({ Code := CodeType.OK, Key := alice, Value := [100],
                   Proof := alice ++ [100], Height := 5, Log := "" }, app6) ∧
    Query demoOps demoStake app6 ⟨alice, "/store", 5, false⟩ =
      Except.ok ({ Code := CodeType.OK, Key := alice, Value := [150],
                   Proof := [], Height := 5, Log := "" }, app6) ∧
    Query demoOps demoStake app6 ⟨alice, "/key", 5, false⟩ =
      Except.ok ({ Code := CodeType.OK, Key := alice, Value := [150],
                   Proof := [], Height := 5, Log := "" }, app6) :=
  ⟨rfl, rfl, rfl, rfl, rfl, rfl⟩

/-- C7 (the code departs from the claim): in the scenario, `Query` on `/store` with
height 0 and `Prove` set answers for height 5 and returns 100, the value as of height 5,
while the value as of the latest committed height 6, which `Query` with height 6
returns, is 150. -/
theorem Query_height_zero_proved_previous :
    appAt6 = Except.ok app6 ∧
    app6.state.valueAt 6 alice = some [150] ∧
    Query demoOps demoStake app6 ⟨alice, "/store", 6, true⟩ =
      Except.ok ({ Code := CodeType.OK, Key := alice, Value := [150],
                   Proof := alice ++ [150], Height := 6, Log := "" }, app6) ∧
    Query demoOps demoStake app6 ⟨alice, "/store", 0, true⟩ =
      Except.ok ({ Code := CodeType.OK, Key := alice, Value := [100],
                   Proof := alice ++ [100], Height := 5, Log := "" }, app6) ∧
    queryValue (Query demoOps demoStake app6 ⟨alice, "/store", 0, true⟩) ≠
      queryValue (Query demoOps demoStake app6 ⟨alice, "/store", 6, true⟩) :=
  ⟨rfl, rfl, rfl, rfl,
    fun h => absurd (show (some [100] : Option Bytes) = some [150] from h) (by decide)⟩

theorem Query_ok_height {σ : Type} (ops : StateOps σ) (stake : StakeOps) (app app1 : StoreApp σ)
    (req : RequestQuery) (r : ResponseQuery) (hdata : req.Data ≠ [])
    (h : Query ops stake app req = Except.ok (r, app1)) :
    r.Height = resolveHeight ops app req.Height := by
  have hne : ¬ req.Data.length = 0 := fun h0 => hdata (List.length_eq_zero.1 h0)
  unfold Query at h
  simp only [hne, if_false] at h
  split_ifs at h <;> first
    | (injection h with h; injection h with h1 _; rw [← h1])
    | (split at h <;> first
        | (injection h with h; injection h with h1 _; rw [← h1])
        | (exact absurd h (by simp)))

theorem Query_returns {σ : Type} (ops : StateOps σ) (stake : StakeOps) (app : StoreApp σ)
    (req : RequestQuery)
    (hslot : req.Path = "/slot" → stake.GetSlot req.Data ≠ none)
    (hcand : req.Path = "/validator" → stake.GetCandidate req.Data ≠ none) :
    ∃ r, Query ops stake app req = Except.ok (r, app) := by
  unfold Query
  simp only
  split_ifs with h0 h1 h2 h3 h4 h5 h6 h7
  · exact ⟨_, rfl⟩
  · cases hg : ops.GetVersionedWithProof app.state req.Data
        (resolveHeight ops app req.Height) with
    | error e => exact ⟨_, rfl⟩
    | ok pr => exact ⟨_, rfl⟩
  · exact ⟨_, rfl⟩
  · cases hg : stake.GetSlot req.Data with
    | none => exact absurd hg (hslot h3)
    | some slot => exact ⟨_, rfl⟩
  · exact ⟨_, rfl⟩
  · exact ⟨_, rfl⟩
  · cases hg : stake.GetCandidate req.Data with
    | none => exact absurd hg (hcand h6)
    | some c => exact ⟨_, rfl⟩
  · exact ⟨_, rfl⟩
  · exact ⟨_, rfl⟩

/-- C6: for a request with non-empty data, on any path, a response carries as `Height`
the request height when that is non-zero; for request height 0 it carries
`CommittedHeight - 1` (in `int64`) when the version `uint64(CommittedHeight - 1)` exists
and `CommittedHeight` otherwise; the call returns unless the path is `/slot` or
`/validator` and the stake lookup returned nil.  At `CommittedHeight` 0 the version
tested is `2^64 - 1`, and when it does not exist the height is 0. -/
theorem Query_response_height {σ : Type} (ops : StateOps σ) (stake : StakeOps) (app : StoreApp σ)
    (req : RequestQuery) (hdata : req.Data ≠ []) :
    ((req.Path = "/slot" → stake.GetSlot req.Data ≠ none) →
      (req.Path = "/validator" → stake.GetCandidate req.Data ≠ none) →
      ∃ r, Query ops stake app req = Except.ok (r, app)) ∧
    (∀ (r : ResponseQuery) (app1 : StoreApp σ), Query ops stake app req = Except.ok (r, app1) →
      (req.Height ≠ 0 → r.Height = req.Height) ∧
      (req.Height = 0 →
        ops.VersionExists app.state (toUint64 (wrapInt64 (CommittedHeight app - 1))) = true →
        r.Height = wrapInt64 (CommittedHeight app - 1)) ∧
      (req.Height = 0 →
        ops.VersionExists app.state (toUint64 (wrapInt64 (CommittedHeight app - 1))) = false →
        r.Height = CommittedHeight app) ∧
      (req.Height = 0 → CommittedHeight app = 0 →
        ops.VersionExists app.state (2 ^ 64 - 1) = false → r.Height = 0)) ∧
    (-2 ^ 63 < CommittedHeight app → CommittedHeight app < 2 ^ 63 →
      wrapInt64 (CommittedHeight app - 1) = CommittedHeight app - 1) ∧
    (CommittedHeight app = 0 →
      toUint64 (wrapInt64 (CommittedHeight app - 1)) = 2 ^ 64 - 1) := by
  have hpred0 : toUint64 (wrapInt64 (0 - 1)) = 2 ^ 64 - 1 := by decide
  refine ⟨Query_returns ops stake app req, ?_, ?_, ?_⟩
  · intro r app1 h
    have hh := Query_ok_height ops stake app app1 req r hdata h
    refine ⟨?_, ?_, ?_, ?_⟩
    · intro hz
      rw [hh]; simp [resolveHeight, hz]
    · intro hz hex
      rw [hh]; simp only [resolveHeight, hz, if_true, hex]
    · intro hz hex
      rw [hh]; simp [resolveHeight, hz, hex]
    · intro hz hc hex
      rw [hh]
      simp only [resolveHeight, hz, if_true, hc, hpred0, hex]
      simp
  · intro h1 h2
    exact wrapInt64_of_range _ (by omega) (by omega)
  · intro hc
    rw [hc]
    exact hpred0

/-- C6 at committed height 0 with request height 0: the response height is 0. -/
theorem Query_response_height_witness :
    alice ≠ [] ∧
    CommittedHeight appAt0 = 0 ∧
    Query demoOps demoStake appAt0 ⟨alice, "/store", 0, true⟩ =
      Except.ok ({ Code := CodeType.OK, Key := alice, Value := [], Proof := [],
                   Height := 0, Log := "VersionNotFound" }, appAt0) ∧
    ({ Code := CodeType.OK, Key := alice, Value := [], Proof := [],
       Height := 0, Log := "VersionNotFound" } : ResponseQuery).Height = 0 :=
  ⟨by decide, rfl, rfl,
    ((Query_response_height demoOps demoStake appAt0 ⟨alice, "/store", 0, true⟩ (by decide)).2.1
      { Code := CodeType.OK, Key := alice, Value := [], Proof := [],
        Height := 0, Log := "VersionNotFound" } appAt0 rfl).2.2.2 rfl rfl rfl⟩

/-- C8: `Query` with zero-length data returns code `EncodingErr`, log `Query cannot be
zero length` and every other field unset, whatever the path, height and prove flag;
the application is unchanged, and the response is the same for every application,
state manager and stake module. -/
theorem Query_zero_length {σ : Type} (ops : StateOps σ) (stake : StakeOps) (app : StoreApp σ)
    (req : RequestQuery) (hdata : req.Data.length = 0) :
    Query ops stake app req =
      Except.ok ({ Code := CodeType.EncodingErr, Key := [], Value := [], Proof := [],
                   Height := 0, Log := "Query cannot be zero length" }, app) ∧
    (∀ (τ : Type) (ops1 : StateOps τ) (stake1 : StakeOps) (other : StoreApp τ),
      (Query ops1 stake1 other req).map Prod.fst = (Query ops stake app req).map Prod.fst) := by
  have h : ∀ (τ : Type) (ops1 : StateOps τ) (stake1 : StakeOps) (other : StoreApp τ),
      Query ops1 stake1 other req =
        Except.ok ({ Code := CodeType.EncodingErr, Key := [], Value := [], Proof := [],
                     Height := 0, Log := "Query cannot be zero length" }, other) := by
    intro τ ops1 stake1 other
    simp [Query, hdata, ResponseQuery.zero]
  refine ⟨h σ ops stake app, ?_⟩
  intro τ ops1 stake1 other
  rw [h τ ops1 stake1 other, h σ ops stake app]
  rfl

/-- C8 on a concrete request: empty data on `/store` at height 5 with `Prove` set. -/
theorem Query_zero_length_witness :
    Query demoOps demoStake app6 ⟨[], "/store", 5, true⟩ =
      Except.ok ({ Code := CodeType.EncodingErr, Key := [], Value := [], Proof := [],
                   Height := 0, Log := "Query cannot be zero length" }, app6) :=
  (Query_zero_length demoOps demoStake app6 ⟨[], "/store", 5, true⟩ rfl).1

/-- C9: for a request with non-empty data whose path is not one of the seven known
paths, `Query` returns code `UnknownRequest` and the log `Unexpected Query path: `
followed by the path, with key, value and proof empty, and leaves the application
unchanged; on each of the seven paths a response never has code `UnknownRequest`; and
`/Store`, `store`, `/store/` and the empty path are not known paths. -/
theorem Query_unknown_path {σ : Type} (ops : StateOps σ) (stake : StakeOps)
    (app : StoreApp σ) (req : RequestQuery) (hdata : req.Data ≠ []) :
    (req.Path ∉ knownPaths →
      Query ops stake app req =
        Except.ok ({ Code := CodeType.UnknownRequest, Key := [], Value := [], Proof := [],
                     Height := resolveHeight ops app req.Height,
                     Log := "Unexpected Query path: " ++ req.Path }, app)) ∧
    (req.Path ∈ knownPaths →
      ∀ (r : ResponseQuery) (app1 : StoreApp σ), Query ops stake app req = Except.ok (r, app1) →
        r.Code ≠ CodeType.UnknownRequest) ∧
    ("/Store" ∉ knownPaths ∧ "store" ∉ knownPaths ∧ "/store/" ∉ knownPaths ∧
      "" ∉ knownPaths) := by
  have hne : ¬ req.Data.length = 0 := fun h0 => hdata (List.length_eq_zero.1 h0)
  refine ⟨?_, ?_, by decide⟩
  · intro hp
    simp only [knownPaths, List.mem_cons, List.mem_singleton, List.not_mem_nil, or_false,
      not_or] at hp
    obtain ⟨h1, h2, h3, h4, h5, h6, h7⟩ := hp
    simp [Query, hne, h1, h2, h3, h4, h5, h6, h7, ResponseQuery.zero]
  · intro hp r app1 h
    simp only [knownPaths, List.mem_cons, List.mem_singleton, List.not_mem_nil, or_false] at hp
    unfold Query at h
    simp only [hne, if_false] at h
    split_ifs at h with h1 h2 h3 h4 h5 h6 h7
    · split at h <;>
        (injection h with h; injection h with h _; rw [← h]; simp [ResponseQuery.zero])
    · injection h with h; injection h with h _; rw [← h]; simp [ResponseQuery.zero]
    · split at h
      · exact absurd h (by simp)
      · injection h with h; injection h with h _; rw [← h]; simp [ResponseQuery.zero]
    · injection h with h; injection h with h _; rw [← h]; simp [ResponseQuery.zero]
    · injection h with h; injection h with h _; rw [← h]; simp [ResponseQuery.zero]
    · split at h
      · exact absurd h (by simp)
      · injection h with h; injection h with h _; rw [← h]; simp [ResponseQuery.zero]
    · injection h with h; injection h with h _; rw [← h]; simp [ResponseQuery.zero]
    · exfalso
      rcases hp with hp | hp | hp | hp | hp | hp | hp
      · exact h1 (Or.inl hp)
      · exact h1 (Or.inr hp)
      · exact h3 hp
      · exact h4 hp
      · exact h5 hp
      · exact h6 hp
      · exact h7 hp

/-- C9 on a concrete request: the path `/Store` at height 6. -/
theorem Query_unknown_path_witness :
    alice ≠ [] ∧ "/Store" ∉ knownPaths ∧
    Query demoOps demoStake app6 ⟨alice, "/Store", 6, false⟩ =
      Except.ok ({ Code := CodeType.UnknownRequest, Key := [], Value := [], Proof := [],
                   Height := 6, Log := "Unexpected Query path: /Store" }, app6) :=
  ⟨by decide, by decide,
    (Query_unknown_path demoOps demoStake app6 ⟨alice, "/Store", 6, false⟩ (by decide)).1
      (by decide)⟩

/-! ## Commit -/

/-- C10: when the state commit succeeds with hash `hash` and state `st`, `Commit` returns;
if the size of `st` is 0 the response is the sentinel (empty data, log `Empty hash for
empty tree`) whatever `hash` is, and otherwise its data is exactly `hash`. -/
theorem Commit_response {σ : Type} (ops : StateOps σ) (app : StoreApp σ) (hash : Bytes)
    (st : σ) (hcommit : ops.Commit app.state (WorkingHeight app) = Except.ok (hash, st)) :
    (ops.Size st = 0 →
      Commit ops app =
        Except.ok ({ Code := CodeType.OK, Data := [], Log := "Empty hash for empty tree" },
                   { app with height := WorkingHeight app, state := st })) ∧
    (ops.Size st ≠ 0 →
      Commit ops app =
        Except.ok ({ Code := CodeType.OK, Data := hash, Log := "" },
                   { app with height := WorkingHeight app, state := st })) := by
  have h := Commit_of_ok ops app hash st hcommit
  constructor
  · intro hs
    rw [h, if_pos hs]
  · intro hs
    rw [h, if_neg hs]

/-- C10 on the empty tree: the state commit computes the hash `[0]`, the size after the
commit is 0, and the response is the sentinel; and on the tree at height 4, where the
size after the commit is 1, the data is the hash of the state commit. -/
theorem Commit_response_witness :
    demoOps.Commit appAt0.state (WorkingHeight appAt0) =
      Except.ok ([0], { versions := [(1, [])], append := [], historySize := 10 }) ∧
    demoOps.Size { versions := [(1, [])], append := [], historySize := 10 } = 0 ∧
    Commit demoOps appAt0 =
      Except.ok ({ Code := CodeType.OK, Data := [], Log := "Empty hash for empty tree" },
                 { appAt0 with
                   height := WorkingHeight appAt0,
                   state := { versions := [(1, [])], append := [], historySize := 10 } }) ∧
    Commit demoOps appAt4 =
      Except.ok ({ Code := CodeType.OK, Data := [1, 98, 111, 98, 7], Log := "" },
                 { appAt4 with
                   height := WorkingHeight appAt4,
                   state := { versions := [(5, [([98, 111, 98], [7])]),
                                           (4, [([98, 111, 98], [7])])],
                              append := [], historySize := 10 } }) :=
  ⟨rfl, rfl,
    (Commit_response demoOps appAt0 [0]
      { versions := [(1, [])], append := [], historySize := 10 } rfl).1 rfl,
    (Commit_response demoOps appAt4 [1, 98, 111, 98, 7]
      { versions := [(5, [([98, 111, 98], [7])]), (4, [([98, 111, 98], [7])])],
        append := [], historySize := 10 } rfl).2 (by decide)⟩

/-! ## Commit failure, proved lookups, stake paths, Info -/

/-- C11: when the state commit returns an error, `Commit` panics with that error and
gives no response; when the state commit succeeds, `Commit` returns a response; and a
response of `Commit` always comes from a state commit that succeeded. -/
theorem Commit_panics_iff {σ : Type} (ops : StateOps σ) (app : StoreApp σ) :
    (∀ err : String, ops.Commit app.state (WorkingHeight app) = Except.error err →
      Commit ops app = Except.error err) ∧
    (∀ (hash : Bytes) (st : σ),
      ops.Commit app.state (WorkingHeight app) = Except.ok (hash, st) →
      ∃ r app1, Commit ops app = Except.ok (r, app1)) ∧
    (∀ (r : ResponseCommit) (app1 : StoreApp σ), Commit ops app = Except.ok (r, app1) →
      ∃ hash st, ops.Commit app.state (WorkingHeight app) = Except.ok (hash, st)) := by
  refine ⟨?_, ?_, ?_⟩
  · intro err h
    unfold WorkingHeight at h
    simp [Commit, h]
  · intro hash st h
    exact ⟨_, _, Commit_of_ok ops app hash st h⟩
  · intro r app1 h
    obtain ⟨hash, st, h1, _, _⟩ := Commit_ok_inv ops app app1 r h
    exact ⟨hash, st, h1⟩

/-- C11 on a concrete failure: the application is at height 7 over a tree whose latest
version is 4, the state commit at height 8 is rejected, and `Commit` panics with the
error of the state commit. -/
theorem Commit_panics_iff_witness :
    demoOps.Commit appSkew.state (WorkingHeight appSkew) =
      Except.error "InternalError: commit height is not the working height" ∧
    Commit demoOps appSkew =
      Except.error "InternalError: commit height is not the working height" :=
  ⟨rfl, (Commit_panics_iff demoOps appSkew).1 _ rfl⟩

/-- C12: on `/store` or `/key` with non-empty data and `Prove` set, a failing versioned
lookup gives the response with the text of the error as `Log`, code `OK`, empty value
and proof, the request data as `Key` and the resolved height; a lookup that succeeds
gives its value and serialized proof with an empty log. -/
theorem Query_proved_lookup {σ : Type} (ops : StateOps σ) (stake : StakeOps)
    (app : StoreApp σ) (key : Bytes) (path : String) (height : Int) (hkey : key ≠ [])
    (hpath : path = "/store" ∨ path = "/key") :
    (∀ err : String,
      ops.GetVersionedWithProof app.state key (resolveHeight ops app height) =
        Except.error err →
      Query ops stake app ⟨key, path, height, true⟩ =
        Except.ok ({ Code := CodeType.OK, Key := key, Value := [], Proof := [],
                     Height := resolveHeight ops app height, Log := err }, app)) ∧
    (∀ value proof : Bytes,
      ops.GetVersionedWithProof app.state key (resolveHeight ops app height) =
        Except.ok (value, proof) →
      Query ops stake app ⟨key, path, height, true⟩ =
        Except.ok ({ Code := CodeType.OK, Key := key, Value := value, Proof := proof,
                     Height := resolveHeight ops app height, Log := "" }, app)) := by
  have hne : ¬ key.length = 0 := fun h0 => hkey (List.length_eq_zero.1 h0)
  constructor
  · intro err h
    simp only [Query, hne, if_false, hpath, if_true, h]
    simp [ResponseQuery.zero]
  · intro value proof h
    simp only [Query, hne, if_false, hpath, if_true, h]
    simp [ResponseQuery.zero]

/-- C12 on the scenario: height 9 was never committed, the lookup fails with
`VersionNotFound`; height 5 is retained, the lookup gives 100 and its proof. -/
theorem Query_proved_lookup_witness :
    alice ≠ [] ∧
    Query demoOps demoStake app6 ⟨alice, "/key", 9, true⟩ =
      Except.ok ({ Code := CodeType.OK, Key := alice, Value := [], Proof := [],
                   Height := resolveHeight demoOps app6 9, Log := "VersionNotFound" }, app6) ∧
    Query demoOps demoStake app6 ⟨alice, "/key", 5, true⟩ =
      Except.ok ({ Code := CodeType.OK, Key := alice, Value := [100],
                   Proof := alice ++ [100],
                   Height := resolveHeight demoOps app6 5, Log := "" }, app6) :=
  ⟨by decide,
    (Query_proved_lookup demoOps demoStake app6 alice "/key" 9 (by decide)
      (Or.inr rfl)).1 "VersionNotFound" rfl,
    (Query_proved_lookup demoOps demoStake app6 alice "/key" 5 (by decide)
      (Or.inr rfl)).2 [100] (alice ++ [100]) rfl⟩

/-- C13 (the code departs from the claim): ten commits after the scenario, versions 5 and
6 are pruned.  `Query` on `/store` at the pruned height 5 with `Prove` set reports
`VersionNotFound` in the log; with `Prove` unset it reports no failure and returns 150,
the latest value; for a key that no version holds, the unproved response at the pruned
height 5 has the same code, value, proof and log as at the retained height 16. -/
theorem Query_unproved_missing_version :
    run demoOps demoStake app6 (List.replicate 10 Op.commit) = Except.ok app16 ∧
    demoOps.VersionExists app16.state 5 = false ∧
    demoOps.VersionExists app16.state 16 = true ∧
    Query demoOps demoStake app16 ⟨alice, "/store", 5, true⟩ =
      Except.ok ({ Code := CodeType.OK, Key := alice, Value := [], Proof := [],
                   Height := 5, Log := "VersionNotFound" }, app16) ∧
    Query demoOps demoStake app16 ⟨alice, "/store", 5, false⟩ =
      Except.ok ({ Code := CodeType.OK, Key := alice, Value := [150], Proof := [],
                   Height := 5, Log := "" }, app16) ∧
    Query demoOps demoStake app16 ⟨carol, "/store", 5, false⟩ =
      Except.ok ({ Code := CodeType.OK, Key := carol, Value := [], Proof := [],
                   Height := 5, Log := "" }, app16) ∧
    Query demoOps demoStake app16 ⟨carol, "/store", 16, false⟩ =
      Except.ok ({ Code := CodeType.OK, Key := carol, Value := [], Proof := [],
                   Height := 16, Log := "" }, app16) :=
  ⟨rfl, rfl, rfl, rfl, rfl, rfl, rfl⟩

theorem Query_stake_lists {σ : Type} (ops : StateOps σ) (stake : StakeOps) (app : StoreApp σ)
    (data : Bytes) (height : Int) (prove : Bool) (hdata : data ≠ []) :
    Query ops stake app ⟨data, "/slots", height, prove⟩ =
      Except.ok ({ Code := CodeType.OK, Key := [], Value := stake.binSlots stake.GetSlots,
                   Proof := [], Height := resolveHeight ops app height, Log := "" }, app) ∧
    Query ops stake app ⟨data, "/validators", height, prove⟩ =
      Except.ok ({ Code := CodeType.OK, Key := [],
                   Value := stake.binCandidates stake.GetCandidates,
                   Proof := [], Height := resolveHeight ops app height, Log := "" }, app) ∧
    Query ops stake app ⟨data, "/delegator", height, prove⟩ =
      Except.ok ({ Code := CodeType.OK, Key := [],
                   Value := stake.binSlotDelegates
                     (stake.GetSlotDelegatesByAddress (stake.HexToAddress data)),
                   Proof := [], Height := resolveHeight ops app height, Log := "" }, app) := by
  have hne : ¬ data.length = 0 := fun h0 => hdata (List.length_eq_zero.1 h0)
  refine ⟨?_, ?_, ?_⟩ <;> simp [Query, hne, ResponseQuery.zero]

theorem Query_stake_records {σ : Type} (ops : StateOps σ) (stake : StakeOps)
    (app : StoreApp σ) (data : Bytes) (height : Int) (prove : Bool) (hdata : data ≠ []) :
    (∀ slot, stake.GetSlot data = some slot →
      Query ops stake app ⟨data, "/slot", height, prove⟩ =
        Except.ok ({ Code := CodeType.OK, Key := [], Value := stake.binSlot slot,
                     Proof := [], Height := resolveHeight ops app height, Log := "" }, app)) ∧
    (stake.GetSlot data = none →
      Query ops stake app ⟨data, "/slot", height, prove⟩ = Except.error nilDeref) ∧
    (∀ candidate, stake.GetCandidate data = some candidate →
      Query ops stake app ⟨data, "/validator", height, prove⟩ =
        Except.ok ({ Code := CodeType.OK, Key := [], Value := stake.binCandidate candidate,
                     Proof := [], Height := resolveHeight ops app height, Log := "" }, app)) ∧
    (stake.GetCandidate data = none →
      Query ops stake app ⟨data, "/validator", height, prove⟩ = Except.error nilDeref) := by
  have hne : ¬ data.length = 0 := fun h0 => hdata (List.length_eq_zero.1 h0)
  refine ⟨?_, ?_, ?_, ?_⟩
  · intro slot h
    simp [Query, hne, ResponseQuery.zero, h]
  · intro h
    simp [Query, hne, h]
  · intro candidate h
    simp [Query, hne, ResponseQuery.zero, h]
  · intro h
    simp [Query, hne, h]

/-- C14 (the code departs from the claim): with a stake module that holds the slot `s1`
and the candidate `A`, `Query` on `/slot` and `/validator` returns their encodings, but
for an identifier the stake module does not hold (lookup result nil) `Query` panics with
a nil dereference instead of returning a response. -/
theorem Query_nil_record_panics :
    Query demoOps demoStakeOne app6 ⟨[115, 49], "/slot", 0, false⟩ =
      Except.ok ({ Code := CodeType.OK, Key := [], Value := [1, 0], Proof := [],
                   Height := 5, Log := "" }, app6) ∧
    demoStakeOne.GetSlot alice = none ∧
    Query demoOps demoStakeOne app6 ⟨alice, "/slot", 0, false⟩ = Except.error nilDeref ∧
    Query demoOps demoStakeOne app6 ⟨keyA, "/validator", 0, false⟩ =
      Except.ok ({ Code := CodeType.OK, Key := [], Value := [2, 0], Proof := [],
                   Height := 5, Log := "" }, app6) ∧
    demoStakeOne.GetCandidate alice = none ∧
    Query demoOps demoStakeOne app6 ⟨alice, "/validator", 0, false⟩ =
      Except.error nilDeref :=
  ⟨rfl, rfl, rfl, rfl, rfl, rfl⟩

/-- C16: `Info` returns the name as `Data`, `CommittedHeight` as `LastBlockHeight` and the
latest hash of the state as `LastBlockAppHash`; it leaves the application (name, state,
pending list and height) as it was, also as a call of the driver, so a second `Info`
returns the same response. -/
theorem Info_reads {σ : Type} (ops : StateOps σ) (stake : StakeOps) (app : StoreApp σ) :
    (Info ops app).1 =
      { Data := app.Name, LastBlockHeight := CommittedHeight app,
        LastBlockAppHash := ops.LatestHash app.state } ∧
    Hash ops app = ops.LatestHash app.state ∧
    (Info ops app).2 = app ∧
    step ops stake app Op.info = Except.ok app ∧
    (Info ops (Info ops app).2).1 = (Info ops app).1 := by
  refine ⟨rfl, rfl, rfl, rfl, rfl⟩

/-! ## Repeating `AddValChange` -/

theorem addValChanges_cons (p : List Validator) (d : Validator) (ds : List Validator) :
    addValChanges p (d :: ds) = addValChanges (upsert d p) ds := by
  simp [addValChanges, addValStep_eq_upsert]

theorem headAfter_cons (v d : Validator) (ds : List Validator) :
    headAfter v (d :: ds) = headAfter (if d.PubKey = v.PubKey then d else v) ds := by
  simp [headAfter]

theorem headAfter_key (v : Validator) (ds : List Validator) :
    (headAfter v ds).PubKey = v.PubKey := by
  induction ds generalizing v with
  | nil => rfl
  | cons d ds ih =>
    rw [headAfter_cons, ih]
    split
    · assumption
    · rfl

theorem headAfter_eq_lastDiff (v : Validator) (ds : List Validator) :
    headAfter v ds = (lastDiff v.PubKey ds).getD v := by
  induction ds generalizing v with
  | nil => simp [headAfter, lastDiff]
  | cons d ds ih =>
    rw [headAfter_cons, ih, lastDiff_cons]
    by_cases hk : d.PubKey = v.PubKey
    · simp only [hk, if_true]
      cases lastDiff v.PubKey ds <;> simp
    · simp only [hk, if_false]
      cases lastDiff v.PubKey ds <;> simp

theorem headAfter_idem (v : Validator) (ds : List Validator) :
    headAfter (headAfter v ds) ds = headAfter v ds := by
  rw [headAfter_eq_lastDiff (headAfter v ds) ds, headAfter_key, headAfter_eq_lastDiff v ds]
  cases lastDiff v.PubKey ds <;> simp

theorem addValChanges_cons_pending (v : Validator) (vs ds : List Validator) :
    addValChanges (v :: vs) ds =
      headAfter v ds :: addValChanges vs (ds.filter (fun d => d.PubKey ≠ v.PubKey)) := by
  induction ds generalizing v vs with
  | nil => simp [addValChanges, headAfter]
  | cons d ds ih =>
    rw [addValChanges_cons, headAfter_cons]
    by_cases hk : d.PubKey = v.PubKey
    · have hf : (d :: ds).filter (fun d => d.PubKey ≠ v.PubKey) =
          ds.filter (fun d => d.PubKey ≠ v.PubKey) := by
        simp [List.filter_cons, hk]
      simp only [upsert, hk, if_true]
      rw [ih d vs, hf, hk]
    · have hf : (d :: ds).filter (fun d => d.PubKey ≠ v.PubKey) =
          d :: ds.filter (fun d => d.PubKey ≠ v.PubKey) := by
        simp [List.filter_cons, hk]
      simp only [upsert, hk, if_false]
      rw [ih v (upsert d vs), hf, addValChanges_cons]

theorem addValChanges_idem_aux (n : Nat) :
    ∀ (p ds : List Validator), p.length + ds.length ≤ n →
      addValChanges (addValChanges p ds) ds = addValChanges p ds := by
  induction n with
  | zero =>
    intro p ds h
    have hp : p = [] := List.length_eq_zero.1 (by omega)
    have hd : ds = [] := List.length_eq_zero.1 (by omega)
    subst hp; subst hd
    rfl
  | succ n ih =>
    intro p ds h
    cases p with
    | nil =>
      cases ds with
      | nil => rfl
      | cons d ds0 =>
        have h1 : addValChanges [] (d :: ds0) =
            headAfter d ds0 ::
              addValChanges [] (ds0.filter (fun e => e.PubKey ≠ d.PubKey)) := by
          rw [addValChanges_cons]
          simp only [upsert]
          exact addValChanges_cons_pending d [] ds0
        rw [h1, addValChanges_cons_pending, headAfter_cons, headAfter_key]
        have hf : (d :: ds0).filter (fun e => e.PubKey ≠ d.PubKey) =
            ds0.filter (fun e => e.PubKey ≠ d.PubKey) := by
          simp [List.filter_cons]
        simp only [if_true, hf, headAfter_idem]
        rw [ih [] (ds0.filter (fun e => e.PubKey ≠ d.PubKey))]
        have := List.length_filter_le (fun e : Validator => decide (e.PubKey ≠ d.PubKey)) ds0
        simp only [List.length_cons, List.length_nil] at h ⊢
        omega
    | cons v vs =>
      rw [addValChanges_cons_pending v vs ds, addValChanges_cons_pending, headAfter_key,
        headAfter_idem]
      rw [ih vs (ds.filter (fun d => d.PubKey ≠ v.PubKey))]
      have := List.length_filter_le (fun e : Validator => decide (e.PubKey ≠ v.PubKey)) ds
      simp only [List.length_cons] at h
      omega

/-- On non-nil entries: for every pending list, with or without repeated keys, and every
list of diffs, `AddValChange(diffs)` applied twice leaves the application that one
application leaves: the same pending list, entry by entry, of the same length. -/
theorem AddValChange_twice {σ : Type} (app : StoreApp σ) (diffs : List Validator) :
    AddValChange (AddValChange app diffs) diffs = AddValChange app diffs ∧
    (AddValChange (AddValChange app diffs) diffs).pending.length =
      (AddValChange app diffs).pending.length ∧
    (∀ i : Nat, (AddValChange (AddValChange app diffs) diffs).pending[i]? =
      (AddValChange app diffs).pending[i]?) := by
  have h : AddValChange (AddValChange app diffs) diffs = AddValChange app diffs := by
    simp only [AddValChange]
    rw [addValChanges_idem_aux _ app.pending diffs (le_refl _)]
  refine ⟨h, ?_, ?_⟩
  · rw [h]
  · intro i
    rw [h]

/-- The pending list `[A↦10, B↦5, A↦11]` (the key `A` twice) and the diffs
`[A↦20, C↦1, A↦30, C↦2]`. -/
theorem AddValChange_twice_concrete :
    (AddValChange (appWith [⟨keyA, 10⟩, ⟨keyB, 5⟩, ⟨keyA, 11⟩])
        [⟨keyA, 20⟩, ⟨[67], 1⟩, ⟨keyA, 30⟩, ⟨[67], 2⟩]).pending =
      [⟨keyA, 30⟩, ⟨keyB, 5⟩, ⟨keyA, 11⟩, ⟨[67], 2⟩] ∧
    AddValChange (AddValChange (appWith [⟨keyA, 10⟩, ⟨keyB, 5⟩, ⟨keyA, 11⟩])
        [⟨keyA, 20⟩, ⟨[67], 1⟩, ⟨keyA, 30⟩, ⟨[67], 2⟩])
        [⟨keyA, 20⟩, ⟨[67], 1⟩, ⟨keyA, 30⟩, ⟨[67], 2⟩] =
      AddValChange (appWith [⟨keyA, 10⟩, ⟨keyB, 5⟩, ⟨keyA, 11⟩])
        [⟨keyA, 20⟩, ⟨[67], 1⟩, ⟨keyA, 30⟩, ⟨[67], 2⟩] :=
  ⟨by decide,
    (AddValChange_twice (appWith [⟨keyA, 10⟩, ⟨keyB, 5⟩, ⟨keyA, 11⟩])
      [⟨keyA, 20⟩, ⟨[67], 1⟩, ⟨keyA, 30⟩, ⟨[67], 2⟩]).1⟩

/-! ## A committed value and its proof -/

theorem lookup_filter_ne (snap : Snapshot) (k k1 : Bytes) (h : k ≠ k1) :
    (snap.filter (fun e => e.1 ≠ k1)).lookup k = snap.lookup k := by
  induction snap with
  | nil => rfl
  | cons e es ih =>
    obtain ⟨a, b⟩ := e
    simp only [ne_eq, decide_not] at ih ⊢
    by_cases ha : a = k1
    · subst ha
      have hka : (k == a) = false := by
        simp only [beq_eq_false_iff_ne, ne_eq]; exact h
      simp [List.filter_cons, List.lookup, hka, ih]
    · by_cases hk : k = a
      · simp [List.filter_cons, ha, List.lookup, hk]
      · have hka : (k == a) = false := by
          simp only [beq_eq_false_iff_ne, ne_eq]; exact hk
        simp [List.filter_cons, ha, List.lookup, hka, ih]

theorem value_write_same (snap : Snapshot) (k v : Bytes) :
    (Snapshot.write snap (k, v)).value k = v := by
  simp [Snapshot.write, Snapshot.value, List.lookup]

theorem value_write_other (snap : Snapshot) (k k1 v1 : Bytes) (h : k1 ≠ k) :
    (Snapshot.write snap (k1, v1)).value k = snap.value k := by
  have hk : (k == k1) = false := by
    simp only [beq_eq_false_iff_ne, ne_eq]; exact fun hh => h hh.symm
  simp only [Snapshot.write, Snapshot.value, List.lookup, hk]
  rw [lookup_filter_ne snap k k1 (fun hh => h hh.symm)]

theorem value_foldl_write_others (post : List (Bytes × Bytes)) (snap : Snapshot) (k : Bytes)
    (h : ∀ e ∈ post, e.1 ≠ k) :
    (post.foldl Snapshot.write snap).value k = snap.value k := by
  induction post generalizing snap with
  | nil => rfl
  | cons e es ih =>
    obtain ⟨a, b⟩ := e
    simp only [List.foldl_cons]
    rw [ih _ (fun e he => h e (List.mem_cons_of_mem _ he))]
    exact value_write_other snap k a b (h (a, b) (List.mem_cons_self _ _))

theorem value_foldl_write (pre post : List (Bytes × Bytes)) (snap : Snapshot) (k v : Bytes)
    (h : ∀ e ∈ post, e.1 ≠ k) :
    ((pre ++ (k, v) :: post).foldl Snapshot.write snap).value k = v := by
  rw [List.foldl_append, List.foldl_cons, value_foldl_write_others post _ k h,
    value_write_same]

theorem foldl_write_ne_nil (l : List (Bytes × Bytes)) (snap : Snapshot) (h : l ≠ []) :
    l.foldl Snapshot.write snap ≠ [] := by
  induction l using List.reverseRecOn with
  | nil => exact absurd rfl h
  | append_singleton es e _ =>
    rw [List.foldl_append]
    simp [Snapshot.write]

theorem lookup_filter_above (l : List (Int × Snapshot)) (c H : Int) (hc : c < H) :
    (l.filter (fun v => c < v.1)).lookup H = l.lookup H := by
  induction l with
  | nil => rfl
  | cons e es ih =>
    obtain ⟨a, b⟩ := e
    by_cases ha : c < a
    · by_cases hH : H = a
      · simp [List.filter_cons, ha, List.lookup, hH]
      · have hb : (H == a) = false := by
          simp only [beq_eq_false_iff_ne, ne_eq]; exact hH
        simp [List.filter_cons, ha, List.lookup, hb, ih]
    · have hb : (H == a) = false := by
        simp only [beq_eq_false_iff_ne, ne_eq]; omega
      simp [List.filter_cons, ha, List.lookup, hb, ih]

theorem commit_retains (rootHash : Snapshot → Bytes) (s s1 : SpecState) (h H : Int)
    (hash : Bytes) (snap : Snapshot)
    (hc : SpecState.commit rootHash s h = Except.ok (hash, s1))
    (hold : s.versions.lookup H = some snap) (hne : H ≠ h) (hwin : h - s.historySize < H) :
    s1.versions.lookup H = some snap := by
  unfold SpecState.commit at hc
  split at hc
  · injection hc with hc
    injection hc with _ hs
    rw [← hs]
    simp only
    rw [lookup_filter_above _ _ _ hwin]
    have hb : (H == h) = false := by
      simp only [beq_eq_false_iff_ne, ne_eq]; exact hne
    simp only [List.lookup, hb]
    exact hold
  · exact absurd hc (by simp)

theorem commit_creates (rootHash : Snapshot → Bytes) (s s1 : SpecState) (h : Int)
    (hash : Bytes) (hwindow : 0 < s.historySize)
    (hc : SpecState.commit rootHash s h = Except.ok (hash, s1)) :
    hash = rootHash s.nextVersion ∧ s1.versions.lookup h = some s.nextVersion ∧
      s1.latest = s.nextVersion := by
  unfold SpecState.commit at hc
  split at hc
  · injection hc with hc
    injection hc with hh hs
    have hkeep : decide (h - s.historySize < h) = true := by
      simp only [decide_eq_true_eq]; omega
    refine ⟨hh.symm, ?_, ?_⟩
    · rw [← hs]
      simp only [List.filter_cons, hkeep, if_true, List.lookup, beq_self_eq_true]
      rfl
    · rw [← hs]
      simp only [SpecState.latest, List.filter_cons, hkeep, if_true]
      rfl
  · exact absurd hc (by simp)

/-! ## The parameter registry -/

theorem fieldNamed_jsonTag (f : ParamField) : fieldNamed f.jsonTag = some f := by
  cases f <;> rfl

theorem fieldNamed_isSome_iff (name : String) :
    (fieldNamed name).isSome = true ↔ name ∈ jsonTags := by
  unfold fieldNamed jsonTags
  rw [List.find?_isSome]
  constructor
  · rintro ⟨f, hf, hname⟩
    exact List.mem_map.2 ⟨f, hf, by simpa using hname⟩
  · intro h
    obtain ⟨f, hf, hname⟩ := List.mem_map.1 h
    exact ⟨f, hf, by simpa using hname⟩

theorem SetParam_fst (st : ParamsState) (name value : String) :
    (SetParam st name value).1 = (fieldNamed name).isSome := by
  unfold SetParam
  cases fieldNamed name <;> rfl

theorem SetParam_unknown (st : ParamsState) (name value : String)
    (h : (SetParam st name value).1 = false) : (SetParam st name value).2 = st := by
  unfold SetParam at h ⊢
  cases hf : fieldNamed name with
  | none => rfl
  | some f => simp [hf] at h

theorem SetParam_known_dirty (st : ParamsState) (name value : String)
    (h : (SetParam st name value).1 = true) : (SetParam st name value).2.dirty = true := by
  unfold SetParam at h ⊢
  cases hf : fieldNamed name with
  | none => simp [hf] at h
  | some f => rfl

theorem SetParam_sets_dirty (st : ParamsState) (name value : String) :
    (SetParam st name value).2.dirty = true ↔ name ∈ jsonTags ∨ st.dirty = true := by
  rw [← fieldNamed_isSome_iff]
  unfold SetParam
  cases hf : fieldNamed name with
  | none => simp
  | some f => simp

theorem SetParam_unsigned64 (st : ParamsState) (f : ParamField) (value : String) (n : Nat)
    (hk : f.kind = Kind.Uint64) (hv : ParseUint value = some n) :
    f.typeTag = "uint" ∧
    SetParam st f.jsonTag value = (true, { params := f.setUint st.params n, dirty := true }) := by
  unfold SetParam
  rw [fieldNamed_jsonTag]
  cases f <;> simp [ParamField.kind] at hk <;> simp [ParamField.kind, ParamField.typeTag, hv]

/-- C18 (the code departs from the claim): `validators_block_award_ratio`, `max_vals`,
`proposal_expire_period` and `max_slashing_blocks` carry the type tag `uint`, and
`CheckParamType` accepts the values below for them; `SetParam` returns true, but the
rational field keeps 80/100 instead of 90, `MaxVals` holds 4464 instead of 70000,
`ProposalExpirePeriod` keeps 604800 instead of `2^63`, and `MaxSlashingBlocks` holds
-25536 instead of 40000. -/
theorem SetParam_uint_tag_mismatch (floatOk jsonOk : String → Bool) (holdAccount : Bytes) :
    (ParamField.ValidatorsBlockAwardRatio.typeTag = "uint" ∧
      ParamField.MaxVals.typeTag = "uint" ∧
      ParamField.ProposalExpirePeriod.typeTag = "uint" ∧
      ParamField.MaxSlashingBlocks.typeTag = "uint") ∧
    (CheckParamType floatOk jsonOk "validators_block_award_ratio" "90" = true ∧
      SetParam (initialParams holdAccount) "validators_block_award_ratio" "90" =
        (true, { params := defaultParams holdAccount, dirty := true }) ∧
      (defaultParams holdAccount).ValidatorsBlockAwardRatio = ⟨80, 100⟩) ∧
    (CheckParamType floatOk jsonOk "max_vals" "70000" = true ∧
      SetParam (initialParams holdAccount) "max_vals" "70000" =
        (true, { params := { defaultParams holdAccount with MaxVals := 4464 },
                 dirty := true })) ∧
    (CheckParamType floatOk jsonOk "proposal_expire_period" "9223372036854775808" = true ∧
      SetParam (initialParams holdAccount) "proposal_expire_period" "9223372036854775808" =
        (true, { params := defaultParams holdAccount, dirty := true }) ∧
      (defaultParams holdAccount).ProposalExpirePeriod = 604800) ∧
    (CheckParamType floatOk jsonOk "max_slashing_blocks" "40000" = true ∧
      SetParam (initialParams holdAccount) "max_slashing_blocks" "40000" =
        (true, { params := { defaultParams holdAccount with MaxSlashingBlocks := -25536 },
                 dirty := true })) :=
  ⟨⟨rfl, rfl, rfl, rfl⟩, ⟨rfl, rfl, rfl⟩, ⟨rfl, rfl⟩, ⟨rfl, rfl, rfl⟩, ⟨rfl, rfl⟩⟩

theorem paramRun_dirty (calls : List ParamCall) (st : ParamsState) :
    (paramRun st calls).dirty = true ↔
      (∃ pre n v post, calls = pre ++ ParamCall.set n v :: post ∧ n ∈ jsonTags ∧
        ParamCall.clean ∉ post) ∨
      (st.dirty = true ∧ ParamCall.clean ∉ calls) := by
  induction calls generalizing st with
  | nil =>
    simp [paramRun]
  | cons c rest ih =>
    have hrun : paramRun st (c :: rest) = paramRun (paramStep st c) rest := rfl
    rw [hrun, ih]
    cases c with
    | clean =>
      have hd : (paramStep st ParamCall.clean).dirty = false := rfl
      constructor
      · rintro (⟨pre, n, v, post, h1, h2, h3⟩ | ⟨h1, _⟩)
        · exact Or.inl ⟨ParamCall.clean :: pre, n, v, post, by rw [h1]; rfl, h2, h3⟩
        · rw [hd] at h1; cases h1
      · rintro (⟨pre, n, v, post, h1, h2, h3⟩ | ⟨_, h2⟩)
        · cases pre with
          | nil => simp at h1
          | cons p pre1 =>
            simp only [List.cons_append, List.cons.injEq] at h1
            exact Or.inl ⟨pre1, n, v, post, h1.2, h2, h3⟩
        · exact absurd (List.mem_cons_self _ _) h2
    | set name value =>
      have hd : (paramStep st (ParamCall.set name value)).dirty = true ↔
          name ∈ jsonTags ∨ st.dirty = true := SetParam_sets_dirty st name value
      constructor
      · rintro (⟨pre, n, v, post, h1, h2, h3⟩ | ⟨h1, h2⟩)
        · exact Or.inl ⟨ParamCall.set name value :: pre, n, v, post, by rw [h1]; rfl, h2, h3⟩
        · rcases hd.1 h1 with h | h
          · exact Or.inl ⟨[], name, value, rest, rfl, h, h2⟩
          · refine Or.inr ⟨h, ?_⟩
            intro hm
            rcases List.mem_cons.1 hm with hm | hm
            · cases hm
            · exact h2 hm
      · rintro (⟨pre, n, v, post, h1, h2, h3⟩ | ⟨h1, h2⟩)
        · cases pre with
          | nil =>
            simp only [List.nil_append, List.cons.injEq, ParamCall.set.injEq] at h1
            obtain ⟨⟨hn, _⟩, hpost⟩ := h1
            refine Or.inr ⟨hd.2 (Or.inl (by rw [hn]; exact h2)), ?_⟩
            rw [hpost]; exact h3
          | cons p pre1 =>
            simp only [List.cons_append, List.cons.injEq] at h1
            exact Or.inl ⟨pre1, n, v, post, h1.2, h2, h3⟩
        · exact Or.inr ⟨hd.2 (Or.inr h1), fun hm => h2 (List.mem_cons_of_mem _ hm)⟩

/-- C20: `SetParam(name, value)` returns true exactly when `name` is the `json` tag of a
field of `Params`; when it returns false the parameters and the dirty flag are
unchanged; when it returns true the dirty flag is set, whatever `value` is.  After any
sequence of `SetParam` and `CleanParams` calls from a state with the flag cleared,
`CleanParams` returns true exactly when some `SetParam` with a recognised name was
called with no `CleanParams` after it, and it leaves the flag cleared. -/
theorem SetParam_dirty_flag (st : ParamsState) (name value : String) :
    ((SetParam st name value).1 = true ↔ name ∈ jsonTags) ∧
    ((SetParam st name value).1 = false → (SetParam st name value).2 = st) ∧
    ((SetParam st name value).1 = true → (SetParam st name value).2.dirty = true) ∧
    (∀ calls : List ParamCall, st.dirty = false →
      ((CleanParams (paramRun st calls)).1 = true ↔
        ∃ pre n v post, calls = pre ++ ParamCall.set n v :: post ∧ n ∈ jsonTags ∧
          ParamCall.clean ∉ post) ∧
      (CleanParams (paramRun st calls)).2.dirty = false ∧
      (CleanParams (paramRun st calls)).2.params = (paramRun st calls).params) := by
  refine ⟨?_, SetParam_unknown st name value, SetParam_known_dirty st name value, ?_⟩
  · rw [SetParam_fst]
    exact fieldNamed_isSome_iff name
  · intro calls hclean
    refine ⟨?_, rfl, rfl⟩
    show (paramRun st calls).dirty = true ↔ _
    rw [paramRun_dirty]
    constructor
    · rintro (h | ⟨h, _⟩)
      · exact h
      · rw [hclean] at h; cases h
    · intro h
      exact Or.inl h

/-- C20 on a concrete sequence from the initial state: an unknown name, a recognised
name with a value that does not parse, `CleanParams`, then an unknown name. -/
theorem SetParam_dirty_flag_witness :
    (initialParams []).dirty = false ∧
    CleanParams (paramRun (initialParams [])
        [ParamCall.set "no_such_param" "1", ParamCall.set "gas_price" "abc"]) =
      (true, initialParams []) ∧
    CleanParams (paramRun (initialParams [])
        [ParamCall.set "gas_price" "abc", ParamCall.clean, ParamCall.set "GasPrice" "5"]) =
      (false, initialParams []) ∧
    ((CleanParams (paramRun (initialParams [])
        [ParamCall.set "no_such_param" "1", ParamCall.set "gas_price" "abc"])).1 = true ↔
      ∃ pre n v post,
        [ParamCall.set "no_such_param" "1", ParamCall.set "gas_price" "abc"] =
          pre ++ ParamCall.set n v :: post ∧ n ∈ jsonTags ∧ ParamCall.clean ∉ post) :=
  ⟨rfl, rfl, rfl,
    ((SetParam_dirty_flag (initialParams []) "gas_price" "abc").2.2.2
      [ParamCall.set "no_such_param" "1", ParamCall.set "gas_price" "abc"] rfl).1⟩

/-! ## The database path of `loadState` -/

theorem Ext_append_db (p : List Char) : Ext (p ++ ['.', 'd', 'b']) = ['.', 'd', 'b'] := by
  simp [Ext, extScan, List.reverse_append]

theorem TrimSuffix_append (p s : List Char) : TrimSuffix (p ++ s) s = p := by
  have h : s.isSuffixOf (p ++ s) = true :=
    List.isSuffixOf_iff_suffix.2 (List.suffix_append p s)
  simp [TrimSuffix, h]

theorem TrimSuffix_nil (p : List Char) : TrimSuffix p [] = p := by
  simp [TrimSuffix]

/-- C17 (the code departs from the claim): `loadState` removes whatever extension the last
element of the absolute path has, not only an added `.db`.  For `/data/chain.v2` it
opens `chain`, while for `/data/chain.v2.db` it opens `chain.v2`; the same holds for the
relative name `chain.v2` in the working directory `/home/node`; for `/data/.hidden` it
opens `data` in `/data`; and for `data/`, whose last element is empty, it opens `data`
in `/home/node`, while for `data/.db` it opens `data` in `/home/node/data`. -/
theorem loadState_strips_any_extension :
    loadState (some "/home/node") "/data/chain.v2" =
      Except.ok (DbTarget.levelDB "chain" "/data") ∧
    loadState (some "/home/node") ("/data/chain.v2" ++ ".db") =
      Except.ok (DbTarget.levelDB "chain.v2" "/data") ∧
    DbTarget.levelDB "chain.v2" "/data" ≠ DbTarget.levelDB "chain" "/data" ∧
    loadState (some "/home/node") "chain.v2" =
      Except.ok (DbTarget.levelDB "chain" "/home/node") ∧
    loadState (some "/home/node") ("chain.v2" ++ ".db") =
      Except.ok (DbTarget.levelDB "chain.v2" "/home/node") ∧
    loadState (some "/home/node") "/data/.hidden" =
      Except.ok (DbTarget.levelDB "data" "/data") ∧
    loadState (some "/home/node") "data/" =
      Except.ok (DbTarget.levelDB "data" "/home/node") ∧
    loadState (some "/home/node") ("data/" ++ ".db") =
      Except.ok (DbTarget.levelDB "data" "/home/node/data") ∧
    DbTarget.levelDB "data" "/home/node/data" ≠ DbTarget.levelDB "data" "/home/node" :=
  ⟨rfl, rfl, by decide, rfl, rfl, rfl, rfl, rfl, by decide⟩

theorem splitSlash_ne_nil (l : List Char) : splitSlash l ≠ [] := by
  cases l with
  | nil => simp [splitSlash]
  | cons c cs =>
    unfold splitSlash
    split
    · simp
    · split <;> simp

theorem splitSlash_slashFree (s : List Char) (h : ∀ c ∈ s, c ≠ '/') : splitSlash s = [s] := by
  induction s with
  | nil => rfl
  | cons c cs ih =>
    have hc : c ≠ '/' := h c (List.mem_cons_self _ _)
    have ih1 := ih (fun x hx => h x (List.mem_cons_of_mem _ hx))
    simp [splitSlash, ih1, hc]

theorem splitSlash_append_slashFree (q s : List Char) (hs : ∀ c ∈ s, c ≠ '/') :
    ∃ front last, splitSlash q = front ++ [last] ∧
      splitSlash (q ++ s) = front ++ [last ++ s] := by
  induction q with
  | nil => exact ⟨[], [], rfl, by simpa using splitSlash_slashFree s hs⟩
  | cons c cs ih =>
    obtain ⟨front, last, h1, h2⟩ := ih
    cases front with
    | nil =>
      by_cases hc : c = '/'
      · exact ⟨[[]], last, by simp [splitSlash, h1, hc], by simp [splitSlash, h2, hc]⟩
      · exact ⟨[], c :: last, by simp [splitSlash, h1, hc], by simp [splitSlash, h2, hc]⟩
    | cons f fs =>
      by_cases hc : c = '/'
      · exact ⟨[] :: f :: fs, last, by simp [splitSlash, h1, hc],
          by simp [splitSlash, h2, hc]⟩
      · exact ⟨(c :: f) :: fs, last, by simp [splitSlash, h1, hc],
          by simp [splitSlash, h2, hc]⟩

theorem splitSlash_append_slash (a b : List Char) :
    splitSlash (a ++ '/' :: b) = splitSlash a ++ splitSlash b := by
  induction a with
  | nil =>
    cases hb : splitSlash b with
    | nil => exact absurd hb (splitSlash_ne_nil b)
    | cons e es => simp [splitSlash, hb]
  | cons c cs ih =>
    cases ha : splitSlash cs with
    | nil => exact absurd ha (splitSlash_ne_nil cs)
    | cons e es =>
      rw [ha] at ih
      by_cases hc : c = '/'
      · simp [splitSlash, ih, ha, hc]
      · simp [splitSlash, ih, ha, hc]

theorem cleanElems_append (r : Bool) (a b out : List (List Char)) :
    cleanElems r (a ++ b) out = cleanElems r b (cleanElems r a out) := by
  induction a generalizing out with
  | nil => rfl
  | cons e es ih =>
    have hcons : (e :: es) ++ b = e :: (es ++ b) := rfl
    rw [hcons]
    by_cases h1 : e = [] ∨ e = ['.']
    · simp only [cleanElems, h1, if_true]
      exact ih _
    · by_cases h2 : e = ['.', '.']
      · cases out with
        | nil =>
          cases r
          · simp only [cleanElems, h1, h2, if_false, if_true, Bool.false_eq_true]
            exact ih _
          · simp only [cleanElems, h1, h2, if_false, if_true]
            exact ih _
        | cons top rest =>
          by_cases h3 : top = ['.', '.']
          · simp only [cleanElems, h1, h2, h3, if_false, if_true]
            exact ih _
          · simp only [cleanElems, h1, h2, h3, if_false, if_true]
            exact ih _
      · simp only [cleanElems, h1, h2, if_false]
        exact ih _

theorem cleanElems_real (r : Bool) (x : List Char) (out : List (List Char))
    (h1 : x ≠ []) (h2 : x ≠ ['.']) (h3 : x ≠ ['.', '.']) :
    cleanElems r [x] out = x :: out := by
  simp [cleanElems, h1, h2, h3]

theorem intercalate_concat (ys : List (List Char)) (x : List Char) :
    ['/'].intercalate (ys ++ [x]) =
      if ys = [] then x else ['/'].intercalate ys ++ '/' :: x := by
  induction ys with
  | nil => simp [List.intercalate, List.intersperse]
  | cons y rest ih =>
    cases rest with
    | nil => simp [List.intercalate, List.intersperse]
    | cons y1 rest1 =>
      simp only [List.cons_ne_nil, if_false] at ih ⊢
      have e1 : (y1 :: rest1) ++ [x] = y1 :: (rest1 ++ [x]) := rfl
      have e2 : (y :: y1 :: rest1) ++ [x] = y :: y1 :: (rest1 ++ [x]) := rfl
      rw [e1] at ih
      rw [e2]
      simp only [List.intercalate, List.intersperse, List.flatten_cons,
        List.append_assoc] at ih ⊢
      rw [ih]

theorem Clean_eq_front (c : Char) (cs : List Char) (front : List (List Char)) (x : List Char)
    (hs : splitSlash (c :: cs) = front ++ [x])
    (h1 : x ≠ []) (h2 : x ≠ ['.']) (h3 : x ≠ ['.', '.']) :
    Clean (c :: cs) = cleanFront (decide (c = '/')) front ++ x := by
  simp only [Clean, hs, cleanElems_append, cleanElems_real _ x _ h1 h2 h3, List.reverse_cons,
    intercalate_concat, cleanFront]
  by_cases hr : c = '/'
  · by_cases hy : (cleanElems true front []).reverse = []
    · simp [hr, hy]
    · simp [hr, hy]
  · by_cases hy : (cleanElems false front []).reverse = []
    · simp [hr, hy]
    · simp [hr, hy]

theorem cleanFront_reverse (r : Bool) (front : List (List Char)) :
    (cleanFront r front).reverse = [] ∨ ∃ t, (cleanFront r front).reverse = '/' :: t := by
  unfold cleanFront
  by_cases hy : (cleanElems r front []).reverse = []
  · cases r
    · left; simp [hy]
    · right; exact ⟨[], by simp [hy]⟩
  · right
    simp only [hy, if_false, List.reverse_append, List.reverse_cons, List.reverse_nil,
      List.nil_append, List.singleton_append, List.cons_append]
    exact ⟨_, rfl⟩

theorem extScan_plain (y rest acc : List Char) (h : ∀ c ∈ y, c ≠ '/' ∧ c ≠ '.') :
    extScan (y ++ rest) acc = extScan rest (y.reverse ++ acc) := by
  induction y generalizing acc with
  | nil => rfl
  | cons c cs ih =>
    have hc := h c (List.mem_cons_self _ _)
    have e1 : (c :: cs) ++ rest = c :: (cs ++ rest) := rfl
    rw [e1]
    simp only [extScan, hc.1, hc.2, if_false]
    rw [ih _ (fun x hx => h x (List.mem_cons_of_mem _ hx))]
    simp

theorem Ext_front_plain (r : Bool) (front : List (List Char)) (x : List Char)
    (h : ∀ c ∈ x, c ≠ '/' ∧ c ≠ '.') : Ext (cleanFront r front ++ x) = [] := by
  unfold Ext
  rw [List.reverse_append, extScan_plain x.reverse _ _ (fun c hc => h c (List.mem_reverse.1 hc))]
  rcases cleanFront_reverse r front with h0 | ⟨t, h0⟩
  · rw [h0]; rfl
  · rw [h0]; simp [extScan]

theorem mem_splitSlash_slashFree (l e : List Char) (he : e ∈ splitSlash l) :
    ∀ c ∈ e, c ≠ '/' := by
  induction l generalizing e with
  | nil =>
    simp [splitSlash] at he
    subst he
    simp
  | cons c cs ih =>
    cases hs : splitSlash cs with
    | nil => exact absurd hs (splitSlash_ne_nil cs)
    | cons f fs =>
      rw [hs] at ih
      by_cases hc : c = '/'
      · simp only [splitSlash, hs, hc, if_true, List.mem_cons] at he
        rcases he with he | he | he
        · subst he; simp
        · exact ih e (by rw [he]; exact List.mem_cons_self _ _)
        · exact ih e (List.mem_cons_of_mem _ he)
      · simp only [splitSlash, hs, hc, if_false, List.mem_cons] at he
        rcases he with he | he
        · subst he
          intro x hx
          rcases List.mem_cons.1 hx with hx | hx
          · rw [hx]; exact hc
          · exact ih f (List.mem_cons_self _ _) x hx
        · exact ih e (List.mem_cons_of_mem _ he)

theorem trimmed_db (c : Char) (cs : List Char) (fr : List (List Char)) (e : List Char)
    (h1 : splitSlash (c :: cs) = fr ++ [e])
    (h2 : splitSlash (c :: (cs ++ ['.', 'd', 'b'])) = fr ++ [e ++ ['.', 'd', 'b']])
    (hne : e ≠ []) (hplain : ∀ x ∈ e, x ≠ '/' ∧ x ≠ '.') :
    TrimSuffix (Clean (c :: (cs ++ ['.', 'd', 'b']))) (Ext (Clean (c :: (cs ++ ['.', 'd', 'b'])))) =
      TrimSuffix (Clean (c :: cs)) (Ext (Clean (c :: cs))) := by
  have hd1 : e ≠ ['.'] := by
    intro h
    exact (hplain '.' (by rw [h]; simp)).2 rfl
  have hd2 : e ≠ ['.', '.'] := by
    intro h
    exact (hplain '.' (by rw [h]; simp)).2 rfl
  have hb0 : e ++ ['.', 'd', 'b'] ≠ [] := by simp
  have hb1 : e ++ ['.', 'd', 'b'] ≠ ['.'] := by
    intro h
    have := congrArg List.length h
    simp at this
  have hb2 : e ++ ['.', 'd', 'b'] ≠ ['.', '.'] := by
    intro h
    have := congrArg List.length h
    simp at this
  rw [Clean_eq_front c cs fr e h1 hne hd1 hd2,
    Clean_eq_front c (cs ++ ['.', 'd', 'b']) fr (e ++ ['.', 'd', 'b']) h2 hb0 hb1 hb2,
    ← List.append_assoc, Ext_append_db, TrimSuffix_append, Ext_front_plain _ _ _ hplain,
    TrimSuffix_nil]

/-- Where `loadState` does remove just an added `.db`: for every database name whose last
slash-separated element `e` is not empty and has no dot, it opens the same database for
the name followed by `.db` as for the name itself (and fails alike when the working
directory is unknown). -/
theorem loadState_db_suffix (wd : Option String) (n : String) (e : List Char)
    (hlast : (splitSlash n.toList).getLast? = some e)
    (hne : e ≠ []) (hdot : ∀ c ∈ e, c ≠ '.') :
    loadState wd (n ++ ".db") = loadState wd n := by
  have hdb : ∀ c ∈ ['.', 'd', 'b'], c ≠ '/' := by decide
  obtain ⟨fr, last, h1, h2⟩ := splitSlash_append_slashFree n.toList ['.', 'd', 'b'] hdb
  have hle : last = e := by
    rw [h1] at hlast
    simpa using hlast
  subst hle
  have hmem : last ∈ splitSlash n.toList := by rw [h1]; simp
  have hplain : ∀ x ∈ last, x ≠ '/' ∧ x ≠ '.' :=
    fun x hx => ⟨mem_splitSlash_slashFree _ _ hmem x hx, hdot x hx⟩
  have htl : (n ++ ".db").toList = n.toList ++ ['.', 'd', 'b'] := rfl
  cases hn : n.toList with
  | nil =>
    rw [hn] at h1
    have : [[]] = fr ++ [last] := h1
    have hl : last = [] := by
      have h3 := congrArg List.getLast? this
      simpa using h3.symm
    exact absurd hl hne
  | cons c cs =>
    have hn1 : ¬ n = "" := by
      intro h
      rw [h] at hn
      exact absurd hn (by simp)
    have hn2 : ¬ n ++ ".db" = "" := by
      intro h
      have hl := congrArg String.length h
      simp only [String.length_append] at hl
      have h3 : ".db".length = 3 := by decide
      have h0 : "".length = 0 := by decide
      omega
    rw [hn] at h1 h2
    have hc2 : (c :: cs) ++ ['.', 'd', 'b'] = c :: (cs ++ ['.', 'd', 'b']) := rfl
    rw [hc2] at h2
    unfold loadState
    simp only [hn1, hn2, if_false, htl, hn, hc2, Abs, List.head?_cons]
    by_cases hc : c = '/'
    · simp only [hc, if_true]
      rw [hc] at h1 h2
      rw [trimmed_db '/' cs fr last h1 h2 hne hplain]
    · have hc1 : ¬ (some c = some '/') := by simpa using hc
      simp only [hc1, if_false]
      cases wd with
      | none => rfl
      | some dir =>
        simp only [Option.map_some']
        have hs1 : splitSlash (dir.toList ++ '/' :: c :: cs) =
            (splitSlash dir.toList ++ fr) ++ [last] := by
          rw [splitSlash_append_slash, h1, List.append_assoc]
        have hs2 : splitSlash (dir.toList ++ '/' :: c :: (cs ++ ['.', 'd', 'b'])) =
            (splitSlash dir.toList ++ fr) ++ [last ++ ['.', 'd', 'b']] := by
          rw [splitSlash_append_slash, h2, List.append_assoc]
        cases hd : dir.toList with
        | nil =>
          rw [hd] at hs1 hs2
          simp only [List.nil_append] at hs1 hs2 ⊢
          have hc3 : c :: (cs ++ ['.', 'd', 'b']) = (c :: cs) ++ ['.', 'd', 'b'] := rfl
          rw [hc3] at hs2 ⊢
          rw [trimmed_db '/' (c :: cs) _ last hs1 hs2 hne hplain]
        | cons a as =>
          rw [hd] at hs1 hs2
          have ha1 : (a :: as) ++ '/' :: c :: cs = a :: (as ++ '/' :: c :: cs) := rfl
          have ha2 : (a :: as) ++ '/' :: c :: (cs ++ ['.', 'd', 'b']) =
              a :: ((as ++ '/' :: c :: cs) ++ ['.', 'd', 'b']) := by simp
          rw [ha1] at hs1
          rw [ha2] at hs2
          rw [ha1, ha2, trimmed_db a (as ++ '/' :: c :: cs) _ last hs1 hs2 hne hplain]

/-- The names `/data/chain` and `data/chain`, which have no extension of their own. -/
theorem loadState_db_suffix_concrete :
    (splitSlash "/data/chain".toList).getLast? = some "chain".toList ∧
    loadState (some "/home/node") ("/data/chain" ++ ".db") =
      loadState (some "/home/node") "/data/chain" ∧
    loadState (some "/home/node") "/data/chain" =
      Except.ok (DbTarget.levelDB "chain" "/data") ∧
    loadState (some "/home/node") ("data/chain" ++ ".db") =
      loadState (some "/home/node") "data/chain" ∧
    loadState (some "/home/node") "data/chain" =
      Except.ok (DbTarget.levelDB "chain" "/home/node/data") :=
  ⟨by decide,
    loadState_db_suffix (some "/home/node") "/data/chain" "chain".toList (by decide)
      (by decide) (by decide),
    rfl,
    loadState_db_suffix (some "/home/node") "data/chain" "chain".toList (by decide)
      (by decide) (by decide),
    rfl⟩

/-- C15 (the claim fails for the empty key): the empty key is written with value 100
through the Append overlay and committed at height 5, version 5 holds it, but `Query`
on `/store` with that key at height 5 and `Prove` set is rejected as zero-length and
returns neither the value nor a proof. -/
theorem committed_empty_key_counterexample :
    Commit demoOps (appAt4.set [] [100]) =
      Except.ok ({ Code := CodeType.OK, Data := demoHash [([], [100]), ([98, 111, 98], [7])],
                   Log := "" }, appEmptyKey5) ∧
    appEmptyKey5.state.valueAt 5 [] = some [100] ∧
    Query demoOps demoStake appEmptyKey5 ⟨[], "/store", 5, true⟩ =
      Except.ok ({ Code := CodeType.EncodingErr, Key := [], Value := [], Proof := [],
                   Height := 0, Log := "Query cannot be zero length" }, appEmptyKey5) ∧
    queryValue (Query demoOps demoStake appEmptyKey5 ⟨[], "/store", 5, true⟩) ≠ some [100] :=
  ⟨rfl, rfl, rfl,
    fun h => absurd (show (some [] : Option Bytes) = some [100] from h) (by decide)⟩

/-! ## The loop of `AddValChange` on pointers -/

theorem pubKeyIndexPtrFrom_some (d : Validator) (l : List Validator) (i : Nat) :
    pubKeyIndexPtrFrom (some d) (l.map some) i = Except.ok (pubKeyIndexFrom d l i) := by
  induction l generalizing i with
  | nil => rfl
  | cons v rest ih =>
    simp only [List.map_cons, pubKeyIndexPtrFrom, pubKeyIndexFrom]
    split
    · rfl
    · exact ih (i + 1)

theorem addValStepPtr_some (p : List Validator) (d : Validator) :
    addValStepPtr (p.map some) (some d) = Except.ok ((addValStep p d).map some) := by
  simp only [addValStepPtr, pubKeyIndexPtr, pubKeyIndexPtrFrom_some, addValStep, pubKeyIndex]
  split
  · simp [List.map_set]
  · simp

theorem addValChangesPtr_some (ds p : List Validator) :
    addValChangesPtr (p.map some) (ds.map some) =
      Except.ok ((addValChanges p ds).map some) := by
  induction ds generalizing p with
  | nil => rfl
  | cons d rest ih =>
    simp only [List.map_cons, addValChangesPtr, addValStepPtr_some]
    rw [ih]
    rfl

theorem eq_map_some_of_nonnil (l : List (Option Validator)) (h : ∀ v ∈ l, v ≠ none) :
    ∃ vs : List Validator, l = vs.map some := by
  induction l with
  | nil => exact ⟨[], rfl⟩
  | cons v rest ih =>
    obtain ⟨vs, hvs⟩ := ih (fun x hx => h x (List.mem_cons_of_mem _ hx))
    cases v with
    | none => exact absurd rfl (h none (List.mem_cons_self _ _))
    | some a => exact ⟨a :: vs, by rw [hvs]; rfl⟩

/-- C19 (the claim fails): with a nil diff the second application does not leave the
pending list of the first.  On the empty pending list, `AddValChange([nil])` appends
nil without reading it, and the second `AddValChange([nil])` panics on `val.PubKey`;
on a pending list that holds nil, `AddValChange([{A,10}])` panics on `v.PubKey`. -/
theorem addValChangesPtr_nil_counterexample :
    addValChangesPtr [] [none] = Except.ok [none] ∧
    addValChangesPtr [none] [none] = Except.error nilDeref ∧
    addValChangesPtr [none] [some ⟨keyA, 10⟩] = Except.error nilDeref :=
  ⟨rfl, rfl, rfl⟩

/-- C19 (amended): for every pending list of non-nil entries, with or without repeated
keys, and every list of non-nil diffs, `AddValChange(diffs)` returns, and applied a
second time it returns the pending list that the first application left: nothing is
appended and every entry is the same at the same index. -/
theorem addValChangesPtr_twice (pending diffs : List (Option Validator))
    (hp : ∀ v ∈ pending, v ≠ none) (hd : ∀ d ∈ diffs, d ≠ none) :
    ∃ once : List (Option Validator),
      addValChangesPtr pending diffs = Except.ok once ∧
      addValChangesPtr once diffs = Except.ok once ∧
      (∀ v ∈ once, v ≠ none) := by
  obtain ⟨ps, hps⟩ := eq_map_some_of_nonnil pending hp
  obtain ⟨ds, hds⟩ := eq_map_some_of_nonnil diffs hd
  subst hps
  subst hds
  refine ⟨(addValChanges ps ds).map some, addValChangesPtr_some ds ps, ?_, ?_⟩
  · rw [addValChangesPtr_some ds (addValChanges ps ds),
      addValChanges_idem_aux _ ps ds (le_refl _)]
  · intro v hv
    obtain ⟨a, _, ha⟩ := List.mem_map.1 hv
    rw [← ha]
    simp

/-- C19 (amended) on a concrete input: pending `[A↦10, B↦5, A↦11]` (the key `A` twice)
and diffs `[A↦20, C↦1, A↦30, C↦2]`, all non-nil. -/
theorem addValChangesPtr_twice_witness :
    addValChangesPtr [some ⟨keyA, 10⟩, some ⟨keyB, 5⟩, some ⟨keyA, 11⟩]
        [some ⟨keyA, 20⟩, some ⟨[67], 1⟩, some ⟨keyA, 30⟩, some ⟨[67], 2⟩] =
      Except.ok [some ⟨keyA, 30⟩, some ⟨keyB, 5⟩, some ⟨keyA, 11⟩, some ⟨[67], 2⟩] ∧
    addValChangesPtr [some ⟨keyA, 30⟩, some ⟨keyB, 5⟩, some ⟨keyA, 11⟩, some ⟨[67], 2⟩]
        [some ⟨keyA, 20⟩, some ⟨[67], 1⟩, some ⟨keyA, 30⟩, some ⟨[67], 2⟩] =
      Except.ok [some ⟨keyA, 30⟩, some ⟨keyB, 5⟩, some ⟨keyA, 11⟩, some ⟨[67], 2⟩] ∧
    ∃ once : List (Option Validator),
      addValChangesPtr [some ⟨keyA, 10⟩, some ⟨keyB, 5⟩, some ⟨keyA, 11⟩]
          [some ⟨keyA, 20⟩, some ⟨[67], 1⟩, some ⟨keyA, 30⟩, some ⟨[67], 2⟩] =
        Except.ok once ∧
      addValChangesPtr once
          [some ⟨keyA, 20⟩, some ⟨[67], 1⟩, some ⟨keyA, 30⟩, some ⟨[67], 2⟩] =
        Except.ok once ∧
      (∀ v ∈ once, v ≠ none) :=
  ⟨rfl, rfl,
    addValChangesPtr_twice [some ⟨keyA, 10⟩, some ⟨keyB, 5⟩, some ⟨keyA, 11⟩]
      [some ⟨keyA, 20⟩, some ⟨[67], 1⟩, some ⟨keyA, 30⟩, some ⟨[67], 2⟩]
      (by decide) (by decide)⟩

/-! ## Proofs of the tree verify against its root hash -/

theorem build_leaves (fuel : Nat) :
    ∀ l : Snapshot, l.length ≤ fuel → (MerkleTree.build fuel l).leaves = l := by
  induction fuel with
  | zero =>
    intro l h
    have hl : l = [] := List.length_eq_zero.1 (by omega)
    subst hl
    rfl
  | succ fuel ih =>
    intro l h
    match l, h with
    | [], _ => rfl
    | [e], _ => rfl
    | e1 :: e2 :: rest, h =>
      simp only [MerkleTree.build, MerkleTree.leaves]
      simp only [List.length_cons] at h
      rw [ih _ (by simp only [List.length_take, List.length_cons]; omega),
        ih _ (by simp only [List.length_drop, List.length_cons]; omega)]
      exact List.take_append_drop _ _

theorem treeOf_leaves (snap : Snapshot) : (treeOf snap).leaves = snap :=
  build_leaves snap.length snap (le_refl _)

theorem lookup_append_pairs (a b : Snapshot) (key : Bytes) :
    (a ++ b).lookup key =
      match a.lookup key with
      | some v => some v
      | none => b.lookup key := by
  induction a with
  | nil => rfl
  | cons e es ih =>
    obtain ⟨k, v⟩ := e
    have hc : ((k, v) :: es) ++ b = (k, v) :: (es ++ b) := rfl
    rw [hc]
    by_cases hk : key = k
    · simp [List.lookup, hk]
    · have hb : (key == k) = false := by
        simp only [beq_eq_false_iff_ne, ne_eq]; exact hk
      simp only [List.lookup, hb]
      exact ih

theorem find_eq_lookup (t : MerkleTree) (key : Bytes) : t.find key = t.leaves.lookup key := by
  induction t with
  | empty => rfl
  | leaf k v =>
    by_cases hk : k = key
    · simp [MerkleTree.find, MerkleTree.leaves, List.lookup, hk]
    · have hb : (key == k) = false := by
        simp only [beq_eq_false_iff_ne, ne_eq]; exact fun h => hk h.symm
      simp [MerkleTree.find, MerkleTree.leaves, List.lookup, hk, hb]
  | node l r ihl ihr =>
    simp only [MerkleTree.find, MerkleTree.leaves, lookup_append_pairs, ihl, ihr]

theorem climb_append (H : Bytes → Bytes) (h : Bytes) (p q : List ProofStep) :
    climb H h (p ++ q) = climb H (climb H h p) q := by
  induction p generalizing h with
  | nil => rfl
  | cons s rest ih =>
    have hc : (s :: rest) ++ q = s :: (rest ++ q) := rfl
    rw [hc]
    simp only [climb]
    exact ih _

theorem path_of_find (H : Bytes → Bytes) (t : MerkleTree) (key : Bytes) :
    (t.find key = none → t.path H key = none) ∧
    (∀ v, t.find key = some v →
      ∃ p, t.path H key = some p ∧ climb H (leafHash H key v) p = t.hash H) := by
  induction t with
  | empty =>
    exact ⟨fun _ => rfl, fun v h => by simp [MerkleTree.find] at h⟩
  | leaf k v0 =>
    by_cases hk : k = key
    · refine ⟨fun h => by simp [MerkleTree.find, hk] at h, ?_⟩
      intro v h
      simp only [MerkleTree.find, hk, if_true, Option.some.injEq] at h
      subst h
      subst hk
      exact ⟨[], by simp [MerkleTree.path], rfl⟩
    · exact ⟨fun _ => by simp [MerkleTree.path, hk],
        fun v h => by simp [MerkleTree.find, hk] at h⟩
  | node l r ihl ihr =>
    cases hl : l.find key with
    | some vl =>
      refine ⟨fun h => by simp [MerkleTree.find, hl] at h, ?_⟩
      intro v h
      simp only [MerkleTree.find, hl, Option.some.injEq] at h
      subst h
      obtain ⟨p, hp, hc⟩ := ihl.2 vl hl
      refine ⟨p ++ [⟨false, r.hash H⟩], by simp [MerkleTree.path, hp], ?_⟩
      rw [climb_append, hc]
      simp [climb, MerkleTree.hash]
    | none =>
      have hpl := ihl.1 hl
      constructor
      · intro h
        simp only [MerkleTree.find, hl] at h
        simp [MerkleTree.path, hpl, ihr.1 h]
      · intro v h
        simp only [MerkleTree.find, hl] at h
        obtain ⟨p, hp, hc⟩ := ihr.2 v h
        refine ⟨p ++ [⟨true, l.hash H⟩], by simp [MerkleTree.path, hpl, hp], ?_⟩
        rw [climb_append, hc]
        simp [climb, MerkleTree.hash]

theorem decode_encode (p : List ProofStep) :
    ∀ fuel : Nat, (encodeProof p).length ≤ fuel → decodeProofN fuel (encodeProof p) = some p := by
  induction p with
  | nil =>
    intro fuel _
    cases fuel <;> rfl
  | cons s rest ih =>
    intro fuel h
    simp only [encodeProof, List.length_cons, List.length_append] at h
    cases fuel with
    | zero => omega
    | succ f =>
      have hrest := ih f (by omega)
      simp only [encodeProof, decodeProofN, List.length_append, Nat.le_add_right, if_true,
        List.drop_left, List.take_left, hrest]
      cases hs : s.siblingLeft with
      | true =>
        simp only [if_true, decide_True]
        congr 2
        cases s
        simp only at hs
        rw [hs]
      | false =>
        simp only [Bool.false_eq_true, if_false]
        congr 2
        cases s
        simp only at hs
        rw [hs]
        simp

theorem merkleVerify_complete (H : Bytes → Bytes) (snap : Snapshot) (key v : Bytes)
    (h : snap.lookup key = some v) :
    merkleVerify H (merkleRoot H snap) key v (merkleProof H snap key) = true := by
  have hf : (treeOf snap).find key = some v := by
    rw [find_eq_lookup, treeOf_leaves]; exact h
  obtain ⟨p, hp, hc⟩ := (path_of_find H (treeOf snap) key).2 v hf
  simp only [merkleVerify, merkleProof, hp, decodeProof, decode_encode p _ (le_refl _),
    merkleRoot, hc, decide_True]

theorem lookup_write_same (snap : Snapshot) (k v : Bytes) :
    (Snapshot.write snap (k, v)).lookup k = some v := by
  simp [Snapshot.write, List.lookup]

theorem lookup_write_other (snap : Snapshot) (k k1 v1 : Bytes) (h : k1 ≠ k) :
    (Snapshot.write snap (k1, v1)).lookup k = snap.lookup k := by
  have hk : (k == k1) = false := by
    simp only [beq_eq_false_iff_ne, ne_eq]; exact fun hh => h hh.symm
  simp only [Snapshot.write, List.lookup, hk]
  rw [lookup_filter_ne snap k k1 (fun hh => h hh.symm)]

theorem lookup_foldl_write_others (post : List (Bytes × Bytes)) (snap : Snapshot) (k : Bytes)
    (h : ∀ e ∈ post, e.1 ≠ k) :
    (post.foldl Snapshot.write snap).lookup k = snap.lookup k := by
  induction post generalizing snap with
  | nil => rfl
  | cons e es ih =>
    obtain ⟨a, b⟩ := e
    simp only [List.foldl_cons]
    rw [ih _ (fun e he => h e (List.mem_cons_of_mem _ he))]
    exact lookup_write_other snap k a b (h (a, b) (List.mem_cons_self _ _))

theorem lookup_foldl_write (pre post : List (Bytes × Bytes)) (snap : Snapshot) (k v : Bytes)
    (h : ∀ e ∈ post, e.1 ≠ k) :
    ((pre ++ (k, v) :: post).foldl Snapshot.write snap).lookup k = some v := by
  rw [List.foldl_append, List.foldl_cons, lookup_foldl_write_others post _ k h,
    lookup_write_same]

theorem lookup_filter_below (l : List (Int × Snapshot)) (c H : Int) (hc : ¬ c < H) :
    (l.filter (fun v => c < v.1)).lookup H = none := by
  induction l with
  | nil => rfl
  | cons e es ih =>
    obtain ⟨a, b⟩ := e
    by_cases ha : c < a
    · have hb : (H == a) = false := by
        simp only [beq_eq_false_iff_ne, ne_eq]; omega
      simp [List.filter_cons, ha, List.lookup, hb, ih]
    · simp [List.filter_cons, ha, ih]

theorem writeAll_frame (app : StoreApp SpecState) (writes : List (Bytes × Bytes)) :
    (app.writeAll writes).height = app.height ∧
    (app.writeAll writes).state.versions = app.state.versions ∧
    (app.writeAll writes).state.historySize = app.state.historySize := by
  unfold StoreApp.writeAll
  induction writes generalizing app with
  | nil => exact ⟨rfl, rfl, rfl⟩
  | cons w ws ih =>
    simp only [List.foldl_cons]
    obtain ⟨h1, h2, h3⟩ := ih (app.set w.1 w.2)
    exact ⟨h1, h2, h3⟩

theorem commit_step (rootHash : Snapshot → Bytes) (s s1 : SpecState) (h : Int) (hash : Bytes)
    (hwindow : 0 < s.historySize)
    (hc : SpecState.commit rootHash s h = Except.ok (hash, s1)) :
    h = s.latestHeight + 1 ∧ s1.latestHeight = h ∧ s1.historySize = s.historySize ∧
    (∀ H : Int, H ≠ h →
      s1.versions.lookup H =
        if h - s.historySize < H then s.versions.lookup H else none) := by
  unfold SpecState.commit at hc
  split at hc
  · rename_i hh
    injection hc with hc
    injection hc with _ hs
    have hkeep : decide (h - s.historySize < h) = true := by
      simp only [decide_eq_true_eq]; omega
    refine ⟨hh, ?_, ?_, ?_⟩
    · rw [← hs]
      simp only [SpecState.latestHeight, List.filter_cons, hkeep, if_true]
    · rw [← hs]
    · intro H hne
      rw [← hs]
      simp only
      have hb : (H == h) = false := by
        simp only [beq_eq_false_iff_ne, ne_eq]; exact hne
      by_cases hw : h - s.historySize < H
      · rw [lookup_filter_above _ _ _ hw, if_pos hw]
        simp only [List.lookup, hb]
      · rw [lookup_filter_below _ _ _ hw, if_neg hw]
  · exact absurd hc (by simp)

theorem commitBlock_step (rootHash : Snapshot → Bytes) (proofOf : Snapshot → Bytes → Bytes)
    (app app1 : StoreApp SpecState) (writes : List (Bytes × Bytes))
    (hwindow : 0 < app.state.historySize)
    (hb : commitBlock (specOps rootHash proofOf) app writes = Except.ok app1) :
    app1.height = app.state.latestHeight + 1 ∧ app1.state.latestHeight = app1.height ∧
    app1.state.historySize = app.state.historySize ∧
    (∀ H : Int, H ≠ app1.height →
      app1.state.versions.lookup H =
        if app1.height - app.state.historySize < H then app.state.versions.lookup H
        else none) := by
  unfold commitBlock at hb
  cases hc : Commit (specOps rootHash proofOf) (app.writeAll writes) with
  | error e => simp [hc, Except.map] at hb
  | ok pr =>
    obtain ⟨r, a⟩ := pr
    simp only [hc, Except.map, Except.ok.injEq] at hb
    subst hb
    obtain ⟨hash, st, h1, h2, _⟩ :=
      Commit_ok_inv (specOps rootHash proofOf) (app.writeAll writes) a r hc
    obtain ⟨_, hv, hn⟩ := writeAll_frame app writes
    have hcs : SpecState.commit rootHash (app.writeAll writes).state
        (WorkingHeight (app.writeAll writes)) = Except.ok (hash, st) := h1
    have hl : (app.writeAll writes).state.latestHeight = app.state.latestHeight := by
      simp only [SpecState.latestHeight, hv]
    obtain ⟨e1, e2, e3, e4⟩ := commit_step rootHash _ st _ hash (by rw [hn]; exact hwindow) hcs
    have hheight : a.height = WorkingHeight (app.writeAll writes) := by rw [h2]
    have hstate : a.state = st := by rw [h2]
    rw [hheight, hstate]
    refine ⟨by rw [e1, hl], e2, by rw [e3, hn], ?_⟩
    intro H hne
    rw [e4 H hne, hn, hv]

theorem commitBlocks_keeps (rootHash : Snapshot → Bytes) (proofOf : Snapshot → Bytes → Bytes)
    (H : Int) (snapH : Snapshot) (blocks : List (List (Bytes × Bytes))) :
    ∀ app later : StoreApp SpecState,
      commitBlocks (specOps rootHash proofOf) app blocks = Except.ok later →
      app.state.latestHeight = app.height → H ≤ app.height → 0 < app.state.historySize →
      (app.state.versions.lookup H = some snapH ∨ app.state.versions.lookup H = none) →
      (later.state.versions.lookup H = some snapH ∨ later.state.versions.lookup H = none) := by
  induction blocks with
  | nil =>
    intro app later hrun _ _ _ hinv
    simp only [commitBlocks, Except.ok.injEq] at hrun
    subst hrun
    exact hinv
  | cons w rest ih =>
    intro app later hrun hsync hle hwindow hinv
    simp only [commitBlocks] at hrun
    cases hb : commitBlock (specOps rootHash proofOf) app w with
    | error e => simp [hb] at hrun
    | ok app1 =>
      simp only [hb] at hrun
      obtain ⟨e1, e2, e3, e4⟩ := commitBlock_step rootHash proofOf app app1 w hwindow hb
      apply ih app1 later hrun e2 (by omega) (by rw [e3]; exact hwindow)
      rw [e4 H (by omega)]
      split
      · exact hinv
      · exact Or.inr rfl

/-- C15 (amended): in the state manager as the spec describes it, over trees with any hash
function `H`, let a block write `key ↦ value` with a non-empty key through the Append
overlay (as the last write of that key) and let `Commit` produce height `H' ≠ 0` with a
retention window of at least one version.  Then in every state reached by further
blocks in which version `H'` is still retained, `Query` on `/store` at height `H'` with
`Prove` set returns `value` and the serialized path of sibling hashes of the key in
version `H'`, the commit returned the root hash of version `H'`, and the check that
recomputes the root hash from `(key, value)` and the proof accepts the proof against the
hash the commit returned. -/
theorem committed_value_proved (H : Bytes → Bytes) (stake : StakeOps)
    (app app1 later : StoreApp SpecState) (r : ResponseCommit) (key value : Bytes)
    (pre post : List (Bytes × Bytes)) (blocks : List (List (Bytes × Bytes)))
    (hkey : key ≠ [])
    (hwrites : app.state.append = pre ++ (key, value) :: post)
    (hlast : ∀ e ∈ post, e.1 ≠ key)
    (hwindow : 0 < app.state.historySize)
    (hcommit : Commit (merkleOps H) app = Except.ok (r, app1))
    (hH : CommittedHeight app1 ≠ 0)
    (hlater : commitBlocks (merkleOps H) app1 blocks = Except.ok later)
    (hretained : later.state.versions.lookup (CommittedHeight app1) ≠ none) :
    r.Data = merkleRoot H app.state.nextVersion ∧
    Query (merkleOps H) stake later ⟨key, "/store", CommittedHeight app1, true⟩ =
      Except.ok ({ Code := CodeType.OK, Key := key, Value := value,
                   Proof := merkleProof H app.state.nextVersion key,
                   Height := CommittedHeight app1, Log := "" }, later) ∧
    merkleVerify H r.Data key value (merkleProof H app.state.nextVersion key) = true := by
  obtain ⟨hash, st, h1, h2, h3⟩ := Commit_ok_inv (merkleOps H) app app1 r hcommit
  have hc : SpecState.commit (merkleRoot H) app.state (WorkingHeight app) =
      Except.ok (hash, st) := h1
  obtain ⟨hhash, hlook, hlatest⟩ := commit_creates (merkleRoot H) app.state st _ hash hwindow hc
  obtain ⟨_, e2, e3, _⟩ := commit_step (merkleRoot H) app.state st _ hash hwindow hc
  have hstate : app1.state = st := by rw [h2]
  have hheight : app1.height = WorkingHeight app := by rw [h2]
  have hlookup : app.state.nextVersion.lookup key = some value := by
    unfold SpecState.nextVersion
    rw [hwrites]
    exact lookup_foldl_write pre post _ key value hlast
  have hval : app.state.nextVersion.value key = value := by
    simp [Snapshot.value, hlookup]
  have hsize : ¬ (merkleOps H).Size st = 0 := by
    show ¬ ((st.latest.length : Int) = 0)
    rw [hlatest]
    have hne : app.state.nextVersion ≠ [] := by
      intro h0
      rw [h0] at hlookup
      simp [List.lookup] at hlookup
    intro h0
    exact hne (List.length_eq_zero.1 (by exact_mod_cast h0))
  have hdata : r.Data = merkleRoot H app.state.nextVersion := by
    rw [h3, if_neg hsize, hhash]
  have hkept : later.state.versions.lookup (CommittedHeight app1) =
      some app.state.nextVersion := by
    have hinv := commitBlocks_keeps (merkleRoot H) (merkleProof H) (CommittedHeight app1)
      app.state.nextVersion blocks app1 later hlater
      (by rw [hstate, e2, hheight]) (le_refl _) (by rw [hstate, e3]; exact hwindow)
      (Or.inl (by
        show app1.state.versions.lookup app1.height = _
        rw [hstate, hheight]; exact hlook))
    rcases hinv with h | h
    · exact h
    · exact absurd h hretained
  have hne : ¬ key.length = 0 := fun h0 => hkey (List.length_eq_zero.1 h0)
  refine ⟨hdata, ?_, ?_⟩
  · have hres : resolveHeight (merkleOps H) later (CommittedHeight app1) =
        CommittedHeight app1 := by
      simp [resolveHeight, hH]
    have hget : (merkleOps H).GetVersionedWithProof later.state key (CommittedHeight app1) =
        Except.ok (value, merkleProof H app.state.nextVersion key) := by
      show SpecState.getVersionedWithProof (merkleProof H) later.state key
        (CommittedHeight app1) = _
      simp only [SpecState.getVersionedWithProof, hkept, hval]
    simp only [Query, hne, if_false, true_or, if_true, hres, hget]
    simp [ResponseQuery.zero]
  · rw [hdata]
    exact merkleVerify_complete H _ key value hlookup

/-- C15 (amended) on the scenario, with the hash `toyHash`: `alice→100` is written and
committed at height 5; after the block that commits `alice→150` at height 6, `Query` at
height 5 with `Prove` set returns 100 with a proof that the check accepts against the
hash the commit at height 5 returned, and rejects for the value 150. -/
theorem committed_value_proved_witness :
    Commit (merkleOps toyHash) (appAt4.set alice [100]) =
      Except.ok ({ Code := CodeType.OK, Data := [202, 7], Log := "" }, app5) ∧
    commitBlocks (merkleOps toyHash) app5 [[(alice, [150])]] = Except.ok app6 ∧
    Query (merkleOps toyHash) demoStake app6 ⟨alice, "/store", CommittedHeight app5, true⟩ =
      Except.ok ({ Code := CodeType.OK, Key := alice, Value := [100],
                   Proof := [0, 2, 67, 7],
                   Height := 5, Log := "" }, app6) ∧
    merkleVerify toyHash [202, 7] alice [100] [0, 2, 67, 7] = true ∧
    merkleVerify toyHash [202, 7] alice [150] [0, 2, 67, 7] = false ∧
    merkleVerify toyHash [202, 7] alice [100]
      (merkleProof toyHash (appAt4.set alice [100]).state.nextVersion alice) = true :=
  ⟨rfl, rfl, rfl, rfl, rfl,
    (committed_value_proved toyHash demoStake (appAt4.set alice [100]) app5 app6
      { Code := CodeType.OK, Data := [202, 7], Log := "" } alice [100] [] []
      [[(alice, [150])]] (by decide) rfl (by intro e he; cases he) (by decide) rfl
      (by decide) rfl (by decide)).2.2⟩

end CyberMiles
